import Mathlib

/-!
Verification of the mijit core against its natural-language specification.

Part 1 embeds the x86_64 assembler (`src/target/x86_64/assembler.rs`):
the byte buffer, displacement arithmetic, instruction emitters and `patch`.
Part 2 embeds the keep-alive analysis (`src/optimizer/builder/keep_alive.rs`)
together with spec-modelled versions of the missing `flood`, `Dataflow` and
`CFT` modules.

Machine integers are modelled as `Nat`/`Int` with explicit reductions modulo
powers of two; fallible operations (Rust panics and assertion failures)
return `Option`.
-/

namespace Mijit

/-! ## Byte buffers

Modelled from the spec: the `Buffer` trait (`src/buffer.rs` is not in the
sources). A buffer is a growable backing store addressed by byte position;
`write pos bytes len` commits the `len` low-order bytes of `bytes` in
little-endian order (x86_64 encoding order, pinned by the disassembly tests
in `assembler.rs`), and `read pos len` reads them back. -/

/-- A byte store: a total map from positions to byte values. -/
def Buf : Type := Nat → Nat

/-- Write the `len` low-order bytes of `bytes` at position `pos`, little-endian. -/
def bufWrite (buf : Buf) (pos bytes len : Nat) : Buf :=
  fun i => if pos ≤ i ∧ i < pos + len then bytes / 256 ^ (i - pos) % 256 else buf i

/-- Read `len` bytes at position `pos`, little-endian. -/
def bufRead (buf : Buf) (pos len : Nat) : Nat :=
  (List.range len).foldr (fun i acc => acc * 256 + buf (pos + i)) 0

/-- Encode an `i32` value (given as an unbounded `Int`) as its `u32` bit pattern. -/
def u32ofInt (v : Int) : Nat := (v.emod (2 ^ 32)).toNat

/-- Encode an `i64` value as its `u64` bit pattern. -/
def u64ofInt (v : Int) : Nat := (v.emod (2 ^ 64)).toNat

/-! ## Displacement arithmetic (`assembler.rs` lines 21-45) -/

/-- The largest buffer position `disp` accepts (`isize::MAX`). -/
def isizeMaxN : Nat := 2 ^ 63 - 1

/-- Computes the displacement from `a` to `b`
(`disp`; `none` models the panic on positions above `isize::MAX`). -/
def disp (a b : Nat) : Option Int :=
  if isizeMaxN < a ∨ isizeMaxN < b then none
  else some ((b : Int) - (a : Int))

/-- Computes the `i32` displacement from `a` to `b` if possible
(`disp32`; `none` models the panics). -/
def disp32 (a b : Nat) : Option Int :=
  match disp a b with
  | none => none
  | some d => if (2 ^ 31 - 1 : Int) < d ∨ d < (-(2 ^ 31) : Int) then none else some d

/-- A value which, used as the `rel32` of a control-flow instruction, is likely
to crash immediately (`UNKNOWN_DISP`). -/
def UNKNOWN_DISP : Int := -(0x80000000 : Int)

/-- Like `disp32` but returns `UNKNOWN_DISP` if `to` is `None` (`optional_disp32`). -/
def optionalDisp32 (a : Nat) (tgt : Option Nat) : Option Int :=
  match tgt with
  | none => some UNKNOWN_DISP
  | some b => disp32 a b

/-! ## Registers, precisions, opcode tables

Modelled from the spec: `src/target/x86_64/mod.rs` is not in the sources.
Register numbering (RA=0 … RDI=7, R8 … R15) and the bit positions that
`Register::mask()` feeds into each encoding pattern are pinned by the
spec's machine-code invariants (§6) and by the disassembly tests in
`assembler.rs` (`regs`, `precs`, `const_`, `move_`, `shift_mode`, ...):
byte 0 of the mask carries bit 3 of the register number in the REX `B`
(bit 0) and REX `R` (bit 2) positions, and every later byte carries the
low three bits in both the `rm` (bits 0-2) and `reg` (bits 3-5) positions. -/

/-- A physical register, numbered 0..15. -/
abbrev Register := Fin 16

/-- The encoding mask of a register (`Register::mask`). -/
def regMask (r : Register) : Nat :=
  5 * (r.val / 8) + 9 * (r.val % 8) * 0x0101010101010100

def RA : Register := 0
def RC : Register := 1
def RD : Register := 2
def RB : Register := 3
def RSP : Register := 4
def RBP : Register := 5
def RSI : Register := 6
def RDI : Register := 7
def R8 : Register := 8
def R9 : Register := 9
def R10 : Register := 10
def R11 : Register := 11
def R12 : Register := 12
def R13 : Register := 13
def R14 : Register := 14
def R15 : Register := 15

/-- Operand width: 32-bit or 64-bit (`Precision`). -/
inductive Precision where
  | P32
  | P64
deriving DecidableEq, Repr, Fintype

/-- The REX.W bit contributed by a precision (`prec as u64`). -/
def Precision.toBit : Precision → Nat
  | .P32 => 0
  | .P64 => 1

/-- The operand width in bits (`Precision::bits`). Modelled from the spec:
"Precision: one of 32-bit, 64-bit, selecting the operand width". -/
def Precision.bits : Precision → Nat
  | .P32 => 32
  | .P64 => 64

/-- A condition code, numbered 0..15 in x86 order (O, NO, B, AE, E, NE, BE, A,
S, NS, P, NP, L, GE, LE, G). Modelled from the spec: `Condition` lives in the
missing `src/target/x86_64/mod.rs`. -/
abbrev Condition := Fin 16

/-- The two opcode bytes of `jcc rel32`, little-endian (`Condition::jump_if`).
Modelled from the spec: patches sniff `0F 8x` for `jcc` (§6), so byte 0 is
`0x0F` and byte 1 is `0x80` plus the condition number. -/
def ccJumpIf (cc : Condition) : Nat := 0x0F ||| ((0x80 + cc.val) <<< 8)

/-- Binary arithmetic opcodes (`BinaryOp` of the missing
`src/target/x86_64/mod.rs`), in the order of the `binary_op` test. -/
inductive BinaryOp where
  | Add
  | Or
  | Adc
  | Sbb
  | And
  | Sub
  | Xor
  | Cmp
deriving DecidableEq, Repr, Fintype

/-- The x86 opcode group number of a binary op. -/
def BinaryOp.groupIndex : BinaryOp → Nat
  | .Add => 0
  | .Or => 1
  | .Adc => 2
  | .Sbb => 3
  | .And => 4
  | .Sub => 5
  | .Xor => 6
  | .Cmp => 7

/-- The "ROM" opcode of `op reg, reg` (`BinaryOp::rm_reg(true)`).
Modelled from the spec: byte 1 is the x86 `op r/m, r` opcode `8*group + 1`,
pinned by the `binary_op` disassembly test. -/
def BinaryOp.rmReg (o : BinaryOp) : Nat := 0xC00040 ||| ((8 * o.groupIndex + 1) <<< 8)

/-- Shift opcodes (`ShiftOp` of the missing `src/target/x86_64/mod.rs`),
in the order of the `shift_op` test. -/
inductive ShiftOp where
  | Rol
  | Ror
  | Rcl
  | Rcr
  | Shl
  | Shr
  | Sar
deriving DecidableEq, Repr, Fintype

/-- The x86 opcode-extension number of a shift op (`SAR` is `/7`). -/
def ShiftOp.ext : ShiftOp → Nat
  | .Rol => 0
  | .Ror => 1
  | .Rcl => 2
  | .Rcr => 3
  | .Shl => 4
  | .Shr => 5
  | .Sar => 7

/-- The "ROM" opcode of `shift r/m, imm8` (`ShiftOp::rm_imm(true)`).
Modelled from the spec: opcode byte `0xC1` with the extension in the `reg`
field, pinned by the `shift_mode` disassembly test. -/
def ShiftOp.rmImm (o : ShiftOp) : Nat := 0xC140 ||| ((0xC0 + 8 * o.ext) <<< 16)

/-! ## The assembler state and write patterns (`assembler.rs` lines 81-175) -/

/-- An assembler: the buffer being filled and the write position (`Assembler`). -/
structure AsmState where
  buffer : Buf
  pos : Nat

/-- A fresh assembler over a zeroed buffer (`Assembler::new`). -/
def asmNew : AsmState := ⟨fun _ => 0, 0⟩

/-- Writes `len` bytes at `pos`, incrementing it (`Assembler::write`). -/
def write (s : AsmState) (bytes len : Nat) : AsmState :=
  ⟨bufWrite s.buffer s.pos bytes len, s.pos + len⟩

/-- Writes an 8-bit immediate given as its byte value (`write_imm8`). -/
def writeImm8 (s : AsmState) (imm : Nat) : AsmState := write s (imm % 256) 1

/-- Writes a 32-bit signed immediate (`write_imm32`). -/
def writeImm32 (s : AsmState) (imm : Int) : AsmState := write s (u32ofInt imm) 4

/-- Writes a 64-bit signed immediate (`write_imm64`). -/
def writeImm64 (s : AsmState) (imm : Int) : AsmState := write s (u64ofInt imm) 8

/-- Writes an instruction with pattern "OO" and no registers (`write_oo_0`). -/
def writeOo0 (s : AsmState) (opcode : Nat) : AsmState := write s opcode 2

/-- Writes an instruction with pattern "RO" and no registers (`write_ro_0`). -/
def writeRo0 (s : AsmState) (opcode : Nat) : AsmState := write s opcode 2

/-- Writes an instruction with pattern "RO" and one register (`write_ro_1`). -/
def writeRo1 (s : AsmState) (opcode : Nat) (prec : Precision) (rd : Register) : AsmState :=
  write s (opcode ||| (prec.toBit <<< 3) ||| (0x0701 &&& regMask rd)) 2

/-- Writes an instruction with pattern "ROM" and one register (`write_rom_1`). -/
def writeRom1 (s : AsmState) (opcode : Nat) (prec : Precision) (rm : Register) : AsmState :=
  write s (opcode ||| (prec.toBit <<< 3) ||| (0x070001 &&& regMask rm)) 3

/-- Writes an instruction with pattern "ROM" and two registers (`write_rom_2`). -/
def writeRom2 (s : AsmState) (opcode : Nat) (prec : Precision) (rm reg : Register) : AsmState :=
  write s (opcode ||| (prec.toBit <<< 3) ||| (0x070001 &&& regMask rm)
    ||| (0x380004 &&& regMask reg)) 3

/-- Writes an instruction with pattern "ROOM" and two registers (`write_room_2`). -/
def writeRoom2 (s : AsmState) (opcode : Nat) (prec : Precision) (rm reg : Register) : AsmState :=
  write s (opcode ||| (prec.toBit <<< 3) ||| (0x07000001 &&& regMask rm)
    ||| (0x38000004 &&& regMask reg)) 4

/-- If `rm` is `RSP` or `R12`, writes the SIB byte `0x24`, otherwise does
nothing (`write_sib_fix`). -/
def writeSibFix (s : AsmState) (rm : Register) : AsmState :=
  if rm.val % 8 = 4 then write s 0x24 1 else s

/-! ## Instructions (`assembler.rs` lines 177-484) -/

/-- Move register to register (`move_`). -/
def move_ (s : AsmState) (prec : Precision) (dest src : Register) : AsmState :=
  writeRom2 s 0xC08B40 prec src dest

/-- Move memory to register (`load`). -/
def load (s : AsmState) (prec : Precision) (dest : Register) (src : Register × Int) : AsmState :=
  writeImm32 (writeSibFix (writeRom2 s 0x808B40 prec src.1 dest) src.1) src.2

/-- Move register to memory (`store`). -/
def store (s : AsmState) (prec : Precision) (dest : Register × Int) (src : Register) : AsmState :=
  writeImm32 (writeSibFix (writeRom2 s 0x808940 prec dest.1 src) dest.1) dest.2

/-- Op register to register (`op`). -/
def op (s : AsmState) (o : BinaryOp) (prec : Precision) (dest src : Register) : AsmState :=
  writeRom2 s o.rmReg prec dest src

/-- Move constant to register, preserving the status flags
(`const_preserving_flags`). The three branches choose the shortest `mov`
that carries the immediate. -/
def constPreservingFlags (s : AsmState) (prec : Precision) (dest : Register) (imm0 : Int) :
    AsmState :=
  let imm : Int := match prec with
    | .P32 => imm0.emod (2 ^ 32)
    | .P64 => imm0
  if 0 ≤ imm ∧ imm < 2 ^ 32 then writeImm32 (writeRo1 s 0xB840 .P32 dest) imm
  else if -(2 ^ 31) ≤ imm ∧ imm < 2 ^ 31 then writeImm32 (writeRom1 s 0xC0C740 .P64 dest) imm
  else writeImm64 (writeRo1 s 0xB840 .P64 dest) imm

/-- Move constant to register; assembles the `xor` zero idiom when the
(masked) immediate is zero (`const_`). -/
def const_ (s : AsmState) (prec : Precision) (dest : Register) (imm0 : Int) : AsmState :=
  let imm : Int := match prec with
    | .P32 => imm0.emod (2 ^ 32)
    | .P64 => imm0
  if imm = 0 then op s .Xor prec dest dest
  else constPreservingFlags s prec dest imm

/-- Shift register by a constant; the assertion `imm < prec.bits()` is
modelled by `none` (`const_shift`). -/
def constShift (s : AsmState) (o : ShiftOp) (prec : Precision) (dest : Register) (imm : Nat) :
    Option AsmState :=
  if imm < prec.bits then some (writeImm8 (writeRom1 s o.rmImm prec dest) imm)
  else none

/-- Push a register (`push`). -/
def push (s : AsmState) (rd : Register) : AsmState := writeRo1 s 0x5040 .P64 rd

/-- Pop a register (`pop`). -/
def pop (s : AsmState) (rd : Register) : AsmState := writeRo1 s 0x5840 .P64 rd

/-! ## Patchable control flow (`assembler.rs` lines 329-389) -/

/-- Change the target of the instruction at `p` from `oldT` to `newT`
(`Assembler::patch`). The opcode bytes at `p` are sniffed to locate the
displacement; `none` models the panic on an unrecognized instruction, a
failed `assert_eq!` on the old displacement, or a displacement overflow. -/
def patch (s : AsmState) (p : Nat) (oldT newT : Option Nat) : Option AsmState :=
  let at? : Option Nat :=
    if s.buffer p = 0x0F ∧ s.buffer (p + 1) &&& 0xF0 = 0x80 then some (p + 2)
    else if s.buffer p = 0x40 ∧ s.buffer (p + 1) = 0xE9 then some (p + 2)
    else if s.buffer p = 0x40 ∧ s.buffer (p + 1) = 0xE8 then some (p + 2)
    else none
  match at? with
  | none => none
  | some a =>
    match optionalDisp32 (a + 4) oldT, optionalDisp32 (a + 4) newT with
    | some od, some nd =>
      if bufRead s.buffer a 4 = u32ofInt od
      then some ⟨bufWrite s.buffer a (u32ofInt nd) 4, s.pos⟩
      else none
    | _, _ => none

/-- Conditional branch (`jump_if`): emits `jcc rel32` with a placeholder
displacement, then patches it to `target`. Returns the patch position and
the new state (`none` models a displacement-overflow panic). -/
def jumpIf (s : AsmState) (cc : Condition) (target : Option Nat) : Nat × Option AsmState :=
  let p := s.pos
  let s1 := writeImm32 (writeOo0 s (ccJumpIf cc)) UNKNOWN_DISP
  (p, patch s1 p none target)

/-- Unconditional jump to a constant (`const_jump`). -/
def constJump (s : AsmState) (target : Option Nat) : Nat × Option AsmState :=
  let p := s.pos
  let s1 := writeImm32 (writeRo0 s 0xE940) UNKNOWN_DISP
  (p, patch s1 p none target)

/-- Unconditional call to a constant (`const_call`). -/
def constCall (s : AsmState) (target : Option Nat) : Nat × Option AsmState :=
  let p := s.pos
  let s1 := writeImm32 (writeRo0 s 0xE840) UNKNOWN_DISP
  (p, patch s1 p none target)

/-- The bytes of the buffer of `s` from position `p`, `n` of them. -/
def bytesAt (s : AsmState) (p n : Nat) : List Nat :=
  (List.range n).map (fun i => s.buffer (p + i))

/-! ## The debug call sequence (`assembler.rs` lines 466-484)

`Assembler::debug` is a sequence of calls to the other assembler methods;
it is embedded at the level of one event per emitted instruction.
`CALLER_SAVES` lives in the missing `src/target/x86_64/mod.rs` and is
modelled from the spec ("The Debug action pushes and pops CALLER_SAVES,
then invokes a foreign debug_word symbol", §9) as an arbitrary list. -/

/-- One emitted instruction of the `debug` sequence. -/
inductive DebugEvent where
  | push (r : Register)
  | pop (r : Register)
  | movRdi (x : Register)
  | constRcDebugWord
  | callRc
deriving DecidableEq, Repr

/-- The instruction sequence emitted by `Assembler::debug(x)`:
an alignment push when `CALLER_SAVES` has odd length, pushes of all
caller-saved registers, the argument move, the address load, the call,
and the matching pops in reverse. -/
def debugTrace (callerSaves : List Register) (x : Register) : List DebugEvent :=
  (if callerSaves.length % 2 ≠ 0 then [DebugEvent.push (callerSaves.headD RA)] else [])
    ++ callerSaves.map DebugEvent.push
    ++ [DebugEvent.movRdi x, DebugEvent.constRcDebugWord, DebugEvent.callRc]
    ++ callerSaves.reverse.map DebugEvent.pop
    ++ (if callerSaves.length % 2 ≠ 0 then [DebugEvent.pop (callerSaves.headD RA)] else [])

/-! ## Buffer lemmas -/

lemma bufWrite_lt (buf : Buf) (pos bytes len i : Nat) (h : i < pos) :
    bufWrite buf pos bytes len i = buf i := by
  simp only [bufWrite]
  rw [if_neg]
  omega

lemma bufWrite_ge (buf : Buf) (pos bytes len i : Nat) (h : pos + len ≤ i) :
    bufWrite buf pos bytes len i = buf i := by
  simp only [bufWrite]
  rw [if_neg]
  omega

lemma bufWrite_mem (buf : Buf) (pos bytes len i : Nat) (h1 : pos ≤ i) (h2 : i < pos + len) :
    bufWrite buf pos bytes len i = bytes / 256 ^ (i - pos) % 256 := by
  simp only [bufWrite]
  rw [if_pos ⟨h1, h2⟩]

lemma bufRead_four (buf : Buf) (a : Nat) :
    bufRead buf a 4 =
      buf a + 256 * buf (a + 1) + 65536 * buf (a + 2) + 16777216 * buf (a + 3) := by
  show (List.range 4).foldr _ 0 = _
  rw [show List.range 4 = [0, 1, 2, 3] from rfl]
  simp [List.foldr]
  ring

lemma u32ofInt_lt (v : Int) : u32ofInt v < 2 ^ 32 := by
  have h1 : v.emod (2 ^ 32) < 2 ^ 32 := Int.emod_lt_of_pos v (by norm_num)
  have h2 : 0 ≤ v.emod (2 ^ 32) := Int.emod_nonneg v (by norm_num)
  simp only [u32ofInt]
  omega

lemma bufWrite_read_four (buf : Buf) (a D : Nat) (hD : D < 2 ^ 32) :
    bufRead (bufWrite buf a D 4) a 4 = D := by
  rw [bufRead_four]
  rw [bufWrite_mem buf a D 4 a le_rfl (by omega),
    bufWrite_mem buf a D 4 (a + 1) (by omega) (by omega),
    bufWrite_mem buf a D 4 (a + 2) (by omega) (by omega),
    bufWrite_mem buf a D 4 (a + 3) (by omega) (by omega)]
  have e0 : a - a = 0 := by omega
  have e1 : a + 1 - a = 1 := by omega
  have e2 : a + 2 - a = 2 := by omega
  have e3 : a + 3 - a = 3 := by omega
  rw [e0, e1, e2, e3]
  norm_num
  omega

lemma digits_four (b0 b1 b2 b3 D : Nat) (h0 : b0 < 256) (h1 : b1 < 256) (h2 : b2 < 256)
    (h3 : b3 < 256) (hD : b0 + 256 * b1 + 65536 * b2 + 16777216 * b3 = D) :
    D % 256 = b0 ∧ D / 256 % 256 = b1 ∧ D / 65536 % 256 = b2 ∧ D / 16777216 % 256 = b3 := by
  omega

/-! ## Lemmas about `patch` -/

/-- The opcode bytes at `p` match one of the three control-flow patterns
that `patch` recognizes: `0F 8x` (jump_if), `40 E9` (const_jump), or
`40 E8` (const_call). -/
def patchable (s : AsmState) (p : Nat) : Prop :=
  (s.buffer p = 0x0F ∧ s.buffer (p + 1) &&& 0xF0 = 0x80)
    ∨ (s.buffer p = 0x40 ∧ s.buffer (p + 1) = 0xE9)
    ∨ (s.buffer p = 0x40 ∧ s.buffer (p + 1) = 0xE8)

instance (s : AsmState) (p : Nat) : Decidable (patchable s p) := by
  unfold patchable
  infer_instance

lemma patch_eq_of_patchable (s : AsmState) (p : Nat) (oldT newT : Option Nat)
    (hpat : patchable s p) :
    patch s p oldT newT =
      match optionalDisp32 (p + 6) oldT, optionalDisp32 (p + 6) newT with
      | some od, some nd =>
        if bufRead s.buffer (p + 2) 4 = u32ofInt od
        then some ⟨bufWrite s.buffer (p + 2) (u32ofInt nd) 4, s.pos⟩
        else none
      | _, _ => none := by
  have h2 : p + 2 + 4 = p + 6 := by omega
  rcases hpat with ⟨ha, hb⟩ | ⟨ha, hb⟩ | ⟨ha, hb⟩ <;>
    simp only [patch, ha, hb, h2] <;>
    norm_num

lemma patch_of_patchable (s : AsmState) (p : Nat) (oldT newT : Option Nat) (od nd : Int)
    (hpat : patchable s p)
    (ho : optionalDisp32 (p + 6) oldT = some od) (hn : optionalDisp32 (p + 6) newT = some nd) :
    patch s p oldT newT =
      if bufRead s.buffer (p + 2) 4 = u32ofInt od
      then some ⟨bufWrite s.buffer (p + 2) (u32ofInt nd) 4, s.pos⟩
      else none := by
  rw [patch_eq_of_patchable s p oldT newT hpat, ho, hn]

lemma patch_of_not_patchable (s : AsmState) (p : Nat) (oldT newT : Option Nat)
    (hpat : ¬ patchable s p) :
    patch s p oldT newT = none := by
  simp only [patchable, not_or, not_and_or] at hpat
  obtain ⟨h1, h2, h3⟩ := hpat
  simp only [patch]
  rcases h1 with h1 | h1 <;> rcases h2 with h2 | h2 <;> rcases h3 with h3 | h3 <;>
    simp [h1, h2, h3]

/-! ## Lemmas about the control-flow emitters -/

lemma emit_pos (s : AsmState) (opc : Nat) :
    (writeImm32 (write s opc 2) UNKNOWN_DISP).pos = s.pos + 6 := by
  show s.pos + 2 + 4 = s.pos + 6
  omega

lemma emit_byte0 (s : AsmState) (opc : Nat) :
    (writeImm32 (write s opc 2) UNKNOWN_DISP).buffer s.pos = opc % 256 := by
  show bufWrite (bufWrite s.buffer s.pos opc 2) (s.pos + 2) _ 4 s.pos = opc % 256
  rw [bufWrite_lt _ _ _ _ _ (by omega), bufWrite_mem _ _ _ _ _ le_rfl (by omega)]
  simp

lemma emit_byte1 (s : AsmState) (opc : Nat) :
    (writeImm32 (write s opc 2) UNKNOWN_DISP).buffer (s.pos + 1) = opc / 256 % 256 := by
  show bufWrite (bufWrite s.buffer s.pos opc 2) (s.pos + 2) _ 4 (s.pos + 1) = opc / 256 % 256
  rw [bufWrite_lt _ _ _ _ _ (by omega), bufWrite_mem _ _ _ _ _ (by omega) (by omega)]
  have : s.pos + 1 - s.pos = 1 := by omega
  rw [this]
  norm_num

lemma emit_disp (s : AsmState) (opc : Nat) :
    bufRead (writeImm32 (write s opc 2) UNKNOWN_DISP).buffer (s.pos + 2) 4 =
      u32ofInt UNKNOWN_DISP := by
  show bufRead (bufWrite (bufWrite s.buffer s.pos opc 2) (s.pos + 2) _ 4) (s.pos + 2) 4 = _
  exact bufWrite_read_four _ _ _ (u32ofInt_lt _)

lemma emit_frame_lt (s : AsmState) (opc : Nat) (i : Nat) (hi : i < s.pos) :
    (writeImm32 (write s opc 2) UNKNOWN_DISP).buffer i = s.buffer i := by
  show bufWrite (bufWrite s.buffer s.pos opc 2) (s.pos + 2) _ 4 i = s.buffer i
  rw [bufWrite_lt _ _ _ _ _ (by omega), bufWrite_lt _ _ _ _ _ hi]

lemma emit_frame_ge (s : AsmState) (opc : Nat) (i : Nat) (hi : s.pos + 6 ≤ i) :
    (writeImm32 (write s opc 2) UNKNOWN_DISP).buffer i = s.buffer i := by
  show bufWrite (bufWrite s.buffer s.pos opc 2) (s.pos + 2) _ 4 i = s.buffer i
  rw [bufWrite_ge _ _ _ _ _ (by omega), bufWrite_ge _ _ _ _ _ (by omega)]

/-- Complete description of the state produced by one of the three patchable
control-flow emitters followed by the internal call to `patch`. -/
lemma cf_emit_spec (s : AsmState) (opc : Nat) (target : Option Nat) (dv : Int)
    (hpat : (opc % 256 = 0x0F ∧ opc / 256 % 256 &&& 0xF0 = 0x80)
      ∨ (opc % 256 = 0x40 ∧ opc / 256 % 256 = 0xE9)
      ∨ (opc % 256 = 0x40 ∧ opc / 256 % 256 = 0xE8))
    (hdv : optionalDisp32 (s.pos + 6) target = some dv) :
    ∃ s', patch (writeImm32 (write s opc 2) UNKNOWN_DISP) s.pos none target = some s' ∧
      s'.pos = s.pos + 6 ∧ s'.buffer s.pos = opc % 256 ∧
      s'.buffer (s.pos + 1) = opc / 256 % 256 ∧
      bufRead s'.buffer (s.pos + 2) 4 = u32ofInt dv ∧
      (∀ i, i < s.pos → s'.buffer i = s.buffer i) ∧
      (∀ i, s.pos + 6 ≤ i → s'.buffer i = s.buffer i) := by
  set s1 := writeImm32 (write s opc 2) UNKNOWN_DISP with hs1
  have hpat1 : patchable s1 s.pos := by
    unfold patchable
    rw [emit_byte0, emit_byte1]
    exact hpat
  have hod : optionalDisp32 (s.pos + 6) none = some UNKNOWN_DISP := rfl
  have heq := patch_of_patchable s1 s.pos none target UNKNOWN_DISP dv hpat1 hod hdv
  rw [emit_disp] at heq
  rw [if_pos rfl] at heq
  refine ⟨_, heq, ?_, ?_, ?_, ?_, ?_, ?_⟩
  · show s1.pos = s.pos + 6
    exact emit_pos s opc
  · show bufWrite s1.buffer (s.pos + 2) _ 4 s.pos = _
    rw [bufWrite_lt _ _ _ _ _ (by omega)]
    exact emit_byte0 s opc
  · show bufWrite s1.buffer (s.pos + 2) _ 4 (s.pos + 1) = _
    rw [bufWrite_lt _ _ _ _ _ (by omega)]
    exact emit_byte1 s opc
  · exact bufWrite_read_four _ _ _ (u32ofInt_lt _)
  · intro i hi
    show bufWrite s1.buffer (s.pos + 2) _ 4 i = _
    rw [bufWrite_lt _ _ _ _ _ (by omega)]
    exact emit_frame_lt s opc i hi
  · intro i hi
    show bufWrite s1.buffer (s.pos + 2) _ 4 i = _
    rw [bufWrite_ge _ _ _ _ _ (by omega)]
    exact emit_frame_ge s opc i hi

lemma ccJumpIf_bytes (cc : Condition) :
    ccJumpIf cc % 256 = 0x0F ∧ ccJumpIf cc / 256 % 256 = 0x80 + cc.val ∧
      (0x80 + cc.val) &&& 0xF0 = 0x80 := by
  revert cc
  decide

lemma patch_some_inv (s : AsmState) (p : Nat) (oldT newT : Option Nat) (s₁ : AsmState)
    (h : patch s p oldT newT = some s₁) :
    patchable s p ∧ ∃ od nd, optionalDisp32 (p + 6) oldT = some od ∧
      optionalDisp32 (p + 6) newT = some nd ∧
      bufRead s.buffer (p + 2) 4 = u32ofInt od ∧
      s₁ = ⟨bufWrite s.buffer (p + 2) (u32ofInt nd) 4, s.pos⟩ := by
  by_cases hpat : patchable s p
  · refine ⟨hpat, ?_⟩
    rw [patch_eq_of_patchable s p oldT newT hpat] at h
    rcases hod : optionalDisp32 (p + 6) oldT with _ | od <;> rw [hod] at h
    · simp at h
    rcases hnd : optionalDisp32 (p + 6) newT with _ | nd <;> rw [hnd] at h
    · simp at h
    dsimp only at h
    by_cases hcur : bufRead s.buffer (p + 2) 4 = u32ofInt od
    · rw [if_pos hcur] at h
      exact ⟨od, nd, rfl, rfl, hcur, (Option.some_inj.mp h).symm⟩
    · rw [if_neg hcur] at h
      simp at h
  · rw [patch_of_not_patchable s p oldT newT hpat] at h
    simp at h

lemma patchable_after_patch (s : AsmState) (p : Nat) (D q : Nat)
    (hpat : patchable s p) :
    patchable ⟨bufWrite s.buffer (p + 2) D 4, q⟩ p := by
  unfold patchable at hpat ⊢
  show _ ∨ _
  rw [show (AsmState.mk (bufWrite s.buffer (p + 2) D 4) q).buffer = bufWrite s.buffer (p + 2) D 4
    from rfl]
  rw [bufWrite_lt _ _ _ _ _ (by omega), bufWrite_lt _ _ _ _ _ (by omega)]
  exact hpat

/-! ## Claim theorems: the assembler -/

/-- C4: `patch` locates the 32-bit displacement by sniffing the opcode bytes
at the patch position (`0F 8x`, `40 E9`, `40 E8`, each putting the
displacement 2 bytes after the instruction start) and panics when none
matches; it asserts that the stored displacement equals
`optional_disp32(at + 4, old_target)`, then overwrites the four displacement
bytes with `optional_disp32(at + 4, new_target)`; a successful patch can be
patched again to retarget the instruction. -/
theorem patch_sniff_assert_rewrite (s : AsmState) (p : Nat) (oldT newT : Option Nat) :
    (¬ patchable s p → patch s p oldT newT = none)
    ∧ (∀ od nd, patchable s p → optionalDisp32 (p + 2 + 4) oldT = some od →
        optionalDisp32 (p + 2 + 4) newT = some nd →
        (bufRead s.buffer (p + 2) 4 = u32ofInt od →
          patch s p oldT newT = some ⟨bufWrite s.buffer (p + 2) (u32ofInt nd) 4, s.pos⟩)
        ∧ (bufRead s.buffer (p + 2) 4 ≠ u32ofInt od → patch s p oldT newT = none))
    ∧ (∀ s₁, patch s p oldT newT = some s₁ →
        ∀ t2 nd2, optionalDisp32 (p + 2 + 4) t2 = some nd2 →
        ∃ s₂, patch s₁ p newT t2 = some s₂) := by
  have h6 : p + 2 + 4 = p + 6 := by omega
  rw [h6]
  refine ⟨patch_of_not_patchable s p oldT newT, ?_, ?_⟩
  · intro od nd hpat hod hnd
    have heq := patch_of_patchable s p oldT newT od nd hpat hod hnd
    constructor
    · intro hcur
      rw [heq, if_pos hcur]
    · intro hcur
      rw [heq, if_neg hcur]
  · intro s₁ h t2 nd2 ht2
    obtain ⟨hpat, od, nd, hod, hnd, hcur, rfl⟩ := patch_some_inv s p oldT newT s₁ h
    have hpat1 := patchable_after_patch s p (u32ofInt nd) s.pos hpat
    have hcur1 : bufRead (bufWrite s.buffer (p + 2) (u32ofInt nd) 4) (p + 2) 4 = u32ofInt nd :=
      bufWrite_read_four _ _ _ (u32ofInt_lt _)
    refine ⟨⟨bufWrite (bufWrite s.buffer (p + 2) (u32ofInt nd) 4) (p + 2) (u32ofInt nd2) 4,
      s.pos⟩, ?_⟩
    rw [patch_of_patchable _ p newT t2 nd nd2 hpat1 hnd ht2, if_pos hcur1]

/-- The state after `const_jump(None)` on a fresh assembler (used by the
witnesses below). -/
def cjState : AsmState := ((constJump asmNew none).2).getD asmNew

/-- Witness for C4: the second and third conjuncts applied to the concrete
state produced by `const_jump(None)`. -/
theorem patch_sniff_assert_rewrite_witness :
    patch cjState 0 none (some 0x100) =
      some ⟨bufWrite cjState.buffer 2 (u32ofInt 0xFA) 4, cjState.pos⟩
    ∧ ∃ s₂, patch ⟨bufWrite cjState.buffer 2 (u32ofInt 0xFA) 4, cjState.pos⟩ 0
        (some 0x100) (some 0x200) = some s₂ := by
  have h := patch_sniff_assert_rewrite cjState 0 none (some 0x100)
  have h1 := (h.2.1 UNKNOWN_DISP 0xFA (by decide) (by decide) (by decide)).1 (by decide)
  refine ⟨h1, ?_⟩
  exact h.2.2 _ h1 (some 0x200) 0x1FA (by decide)

/-- C5: `jump_if`, `const_jump` and `const_call` each emit one control-flow
instruction whose 32-bit displacement field holds (the `u32` encoding of)
`-0x80000000` when the target is `None`, and the displacement to the target
otherwise, and return a `Patch` holding the buffer position of the start of
the instruction. Concretely, `const_jump(None)` returning patch `p` followed
by `patch(p, None, Some 0x02461357)` leaves `disp32(p + 6, 0x02461357)` in
the four bytes at `p + 2`. -/
theorem jump_emitters_placeholder (s : AsmState) (cc : Condition)
    (target : Option Nat) (dv : Int)
    (hdv : optionalDisp32 (s.pos + 6) target = some dv) :
    ((jumpIf s cc target).1 = s.pos ∧ (constJump s target).1 = s.pos ∧
      (constCall s target).1 = s.pos)
    ∧ (target = none → dv = UNKNOWN_DISP)
    ∧ (∃ s', (jumpIf s cc target).2 = some s' ∧ s'.pos = s.pos + 6 ∧
        s'.buffer s.pos = 0x0F ∧ s'.buffer (s.pos + 1) = 0x80 + cc.val ∧
        bufRead s'.buffer (s.pos + 2) 4 = u32ofInt dv)
    ∧ (∃ s', (constJump s target).2 = some s' ∧ s'.pos = s.pos + 6 ∧
        s'.buffer s.pos = 0x40 ∧ s'.buffer (s.pos + 1) = 0xE9 ∧
        bufRead s'.buffer (s.pos + 2) 4 = u32ofInt dv)
    ∧ (∃ s', (constCall s target).2 = some s' ∧ s'.pos = s.pos + 6 ∧
        s'.buffer s.pos = 0x40 ∧ s'.buffer (s.pos + 1) = 0xE8 ∧
        bufRead s'.buffer (s.pos + 2) 4 = u32ofInt dv)
    ∧ (disp32 6 0x02461357 = some 0x02461351 ∧
        ((constJump asmNew none).2.bind
          (fun s1 => patch s1 (constJump asmNew none).1 none (some 0x02461357))).map
          (fun s2 => bufRead s2.buffer ((constJump asmNew none).1 + 2) 4) =
        some (u32ofInt 0x02461351)) := by
  obtain ⟨hb0, hb1, hmask⟩ := ccJumpIf_bytes cc
  refine ⟨⟨rfl, rfl, rfl⟩, ?_, ?_, ?_, ?_, by decide, by decide⟩
  · intro h
    subst h
    exact Option.some_inj.mp hdv.symm
  · obtain ⟨s', h1, h2, h3, h4, h5, _, _⟩ :=
      cf_emit_spec s (ccJumpIf cc) target dv (Or.inl ⟨hb0, by rw [hb1]; exact hmask⟩) hdv
    rw [hb0] at h3
    rw [hb1] at h4
    exact ⟨s', h1, h2, h3, h4, h5⟩
  · obtain ⟨s', h1, h2, h3, h4, h5, _, _⟩ :=
      cf_emit_spec s 0xE940 target dv (by norm_num) hdv
    exact ⟨s', h1, h2, by rw [h3], by rw [h4], h5⟩
  · obtain ⟨s', h1, h2, h3, h4, h5, _, _⟩ :=
      cf_emit_spec s 0xE840 target dv (by norm_num) hdv
    exact ⟨s', h1, h2, by rw [h3], by rw [h4], h5⟩

/-- Witness for C5: the emitters at a fresh assembler with no target. -/
theorem jump_emitters_placeholder_witness :
    ∃ s', (constJump asmNew none).2 = some s' ∧ s'.pos = 0 + 6 ∧
      s'.buffer 0 = 0x40 ∧ s'.buffer (0 + 1) = 0xE9 ∧
      bufRead s'.buffer (0 + 2) 4 = u32ofInt UNKNOWN_DISP := by
  exact (jump_emitters_placeholder asmNew 0 none UNKNOWN_DISP (by decide)).2.2.2.1

/-- C6: patch round-trip. For a patch position holding one of the emitted
control-flow instructions (well-formed byte values) whose displacement field
currently encodes target `a`, `patch(p, a, b)` followed by `patch(p, b, a)`
restores every byte of the buffer and the assembly position. -/
theorem patch_round_trip (s : AsmState) (p : Nat) (a b : Option Nat) (da db : Int)
    (hpat : patchable s p)
    (hbytes : ∀ i, p + 2 ≤ i → i < p + 6 → s.buffer i < 256)
    (hda : optionalDisp32 (p + 6) a = some da)
    (hdb : optionalDisp32 (p + 6) b = some db)
    (hcur : bufRead s.buffer (p + 2) 4 = u32ofInt da) :
    ∃ s₁ s₂, patch s p a b = some s₁ ∧ patch s₁ p b a = some s₂ ∧
      (∀ i, s₂.buffer i = s.buffer i) ∧ s₂.pos = s.pos := by
  have h1 : patch s p a b = some ⟨bufWrite s.buffer (p + 2) (u32ofInt db) 4, s.pos⟩ := by
    rw [patch_of_patchable s p a b da db hpat hda hdb, if_pos hcur]
  set s₁ : AsmState := ⟨bufWrite s.buffer (p + 2) (u32ofInt db) 4, s.pos⟩ with hs₁
  have hpat1 : patchable s₁ p := patchable_after_patch s p (u32ofInt db) s.pos hpat
  have hcur1 : bufRead s₁.buffer (p + 2) 4 = u32ofInt db :=
    bufWrite_read_four _ _ _ (u32ofInt_lt _)
  have h2 : patch s₁ p b a =
      some ⟨bufWrite s₁.buffer (p + 2) (u32ofInt da) 4, s₁.pos⟩ := by
    rw [patch_of_patchable s₁ p b a db da hpat1 hdb hda, if_pos hcur1]
  refine ⟨s₁, _, h1, h2, ?_, rfl⟩
  intro i
  show bufWrite s₁.buffer (p + 2) (u32ofInt da) 4 i = s.buffer i
  by_cases hlo : i < p + 2
  · rw [bufWrite_lt _ _ _ _ _ hlo]
    exact bufWrite_lt _ _ _ _ _ hlo
  by_cases hhi : p + 6 ≤ i
  · rw [bufWrite_ge _ _ _ _ _ (by omega)]
    exact bufWrite_ge _ _ _ _ _ (by omega)
  rw [bufWrite_mem _ _ _ _ _ (by omega) (by omega)]
  have hread := bufRead_four s.buffer (p + 2)
  rw [hcur] at hread
  have e1 : p + 2 + 1 = p + 3 := by omega
  have e2 : p + 2 + 2 = p + 4 := by omega
  have e3 : p + 2 + 3 = p + 5 := by omega
  rw [e1, e2, e3] at hread
  obtain ⟨d0, d1, d2, d3⟩ := digits_four (s.buffer (p + 2)) (s.buffer (p + 3))
    (s.buffer (p + 4)) (s.buffer (p + 5)) (u32ofInt da)
    (hbytes _ (by omega) (by omega)) (hbytes _ (by omega) (by omega))
    (hbytes _ (by omega) (by omega)) (hbytes _ (by omega) (by omega)) hread.symm
  have hi4 : i = p + 2 ∨ i = p + 3 ∨ i = p + 4 ∨ i = p + 5 := by omega
  rcases hi4 with rfl | rfl | rfl | rfl
  · rw [show p + 2 - (p + 2) = 0 from by omega]
    simpa using d0
  · rw [show p + 3 - (p + 2) = 1 from by omega]
    simpa using d1
  · rw [show p + 4 - (p + 2) = 2 from by omega]
    simpa using d2
  · rw [show p + 5 - (p + 2) = 3 from by omega]
    simpa using d3

/-- Witness for C6: round-tripping the displacement of a freshly emitted
`const_jump` between no target and target `0x100`. -/
theorem patch_round_trip_witness :
    ∃ s₁ s₂, patch cjState 0 none (some 0x100) = some s₁ ∧
      patch s₁ 0 (some 0x100) none = some s₂ ∧
      (∀ i, s₂.buffer i = cjState.buffer i) ∧ s₂.pos = cjState.pos := by
  exact patch_round_trip cjState 0 none (some 0x100) UNKNOWN_DISP 0xFA (by decide)
    (by decide) (by decide) (by decide) (by decide)

/-- C7: `const_` masks the immediate to its low 32 bits when the precision is
`P32`, assembles the `xor dest, dest` zero idiom exactly when the masked
immediate is zero, and otherwise defers to `const_preserving_flags`; the
three concrete encodings are `xor r8d, r8d`, `mov r8d, 1`, and the 10-byte
`mov r15, imm64`. -/
theorem const_zero_idiom (s : AsmState) (dest : Register) (imm : Int) :
    (const_ s .P32 dest imm = const_ s .P32 dest (imm.emod (2 ^ 32)))
    ∧ (imm.emod (2 ^ 32) = 0 → const_ s .P32 dest imm = op s .Xor .P32 dest dest)
    ∧ (imm.emod (2 ^ 32) ≠ 0 →
        const_ s .P32 dest imm = constPreservingFlags s .P32 dest (imm.emod (2 ^ 32)))
    ∧ (imm = 0 → const_ s .P64 dest imm = op s .Xor .P64 dest dest)
    ∧ (imm ≠ 0 → const_ s .P64 dest imm = constPreservingFlags s .P64 dest imm)
    ∧ bytesAt (const_ asmNew .P32 R8 0) 0 3 = [0x45, 0x31, 0xC0]
    ∧ bytesAt (const_ asmNew .P32 R8 1) 0 6 = [0x41, 0xB8, 1, 0, 0, 0]
    ∧ (const_ asmNew .P64 R15 0x76543210FEDCBA98).pos = 10
    ∧ bytesAt (const_ asmNew .P64 R15 0x76543210FEDCBA98) 0 10 =
        [0x49, 0xBF, 0x98, 0xBA, 0xDC, 0xFE, 0x10, 0x32, 0x54, 0x76] := by
  have emodemod : ∀ a : Int, (a.emod (2 ^ 32)).emod (2 ^ 32) = a.emod (2 ^ 32) :=
    fun a => Int.emod_emod_of_dvd a (dvd_refl _)
  refine ⟨?_, ?_, ?_, ?_, ?_, by decide, by decide, by decide, by decide⟩
  · show (if imm.emod (2 ^ 32) = 0 then _ else _) = _
    simp only [const_, constPreservingFlags, emodemod]
  · intro h
    show (if imm.emod (2 ^ 32) = 0 then _ else _) = _
    rw [if_pos h]
  · intro h
    show (if imm.emod (2 ^ 32) = 0 then _ else _) = _
    rw [if_neg h]
  · intro h
    show (if imm = 0 then _ else _) = _
    rw [if_pos h]
  · intro h
    show (if imm = 0 then _ else _) = _
    rw [if_neg h]

/-- Witness for C7: the conditional conjuncts at concrete immediates. -/
theorem const_zero_idiom_witness :
    const_ asmNew .P32 R8 0x100000000 = op asmNew .Xor .P32 R8 R8
    ∧ const_ asmNew .P32 R8 1 = constPreservingFlags asmNew .P32 R8 1
    ∧ const_ asmNew .P64 R15 0 = op asmNew .Xor .P64 R15 R15 := by
  exact ⟨(const_zero_idiom asmNew R8 0x100000000).2.1 (by decide),
    (const_zero_idiom asmNew R8 1).2.2.1 (by decide),
    (const_zero_idiom asmNew R15 0).2.2.2.1 rfl⟩

/-- C8: the SIB byte `0x24` is written immediately after the ModR/M byte
exactly when the memory-base register has low three bits `100` (RSP, R12);
`store` with base R12 emits it between the ModR/M byte and the displacement
while base R8 does not. -/
theorem sib_fix (s : AsmState) (r : Register) (prec : Precision) (d : Int) (src : Register) :
    (r.val % 8 = 4 → writeSibFix s r = write s 0x24 1)
    ∧ (r.val % 8 ≠ 4 → writeSibFix s r = s)
    ∧ (r.val % 8 = 4 → (store s prec (r, d) src).pos = s.pos + 8 ∧
        (store s prec (r, d) src).buffer (s.pos + 3) = 0x24)
    ∧ (r.val % 8 ≠ 4 → (store s prec (r, d) src).pos = s.pos + 7)
    ∧ bytesAt (store asmNew .P64 (R12, 0x12345678) R10) 0 8 =
        [0x4D, 0x89, 0x94, 0x24, 0x78, 0x56, 0x34, 0x12]
    ∧ bytesAt (store asmNew .P64 (R8, 0x12345678) R10) 0 7 =
        [0x4D, 0x89, 0x90, 0x78, 0x56, 0x34, 0x12] := by
  refine ⟨?_, ?_, ?_, ?_, by decide, by decide⟩
  · intro h
    simp only [writeSibFix, if_pos h]
  · intro h
    simp only [writeSibFix, if_neg h]
  · intro h
    have hfix : writeSibFix (writeRom2 s 0x808940 prec r src) r
        = write (writeRom2 s 0x808940 prec r src) 0x24 1 := by
      simp only [writeSibFix, if_pos h]
    constructor
    · show (writeImm32 (writeSibFix (writeRom2 s 0x808940 prec r src) r) d).pos = s.pos + 8
      rw [hfix]
      show s.pos + 3 + 1 + 4 = s.pos + 8
      omega
    · show (writeImm32 (writeSibFix (writeRom2 s 0x808940 prec r src) r) d).buffer
          (s.pos + 3) = 0x24
      rw [hfix]
      show bufWrite (bufWrite (bufWrite s.buffer s.pos _ 3) (s.pos + 3) 0x24 1)
        (s.pos + 3 + 1) _ 4 (s.pos + 3) = 0x24
      rw [bufWrite_lt _ _ _ _ _ (by omega), bufWrite_mem _ _ _ _ _ (by omega) (by omega)]
      rw [show s.pos + 3 - (s.pos + 3) = 0 from by omega]
      norm_num
  · intro h
    have hfix : writeSibFix (writeRom2 s 0x808940 prec r src) r
        = writeRom2 s 0x808940 prec r src := by
      simp only [writeSibFix, if_neg h]
    show (writeImm32 (writeSibFix (writeRom2 s 0x808940 prec r src) r) d).pos = s.pos + 7
    rw [hfix]
    show s.pos + 3 + 4 = s.pos + 7
    omega

/-- Witness for C8: the conditional conjuncts at R12 and R8. -/
theorem sib_fix_witness :
    ((store asmNew .P64 (R12, 0x12345678) R10).pos = asmNew.pos + 8 ∧
      (store asmNew .P64 (R12, 0x12345678) R10).buffer (asmNew.pos + 3) = 0x24)
    ∧ (store asmNew .P64 (R8, 0x12345678) R10).pos = asmNew.pos + 7 := by
  exact ⟨(sib_fix asmNew R12 .P64 0x12345678 R10).2.2.1 (by decide),
    (sib_fix asmNew R8 .P64 0x12345678 R10).2.2.2.1 (by decide)⟩

lemma shift_opcode_byte1 :
    ∀ (o : ShiftOp) (prec : Precision) (dest : Register),
      ((o.rmImm ||| (prec.toBit <<< 3)) ||| (0x070001 &&& regMask dest)) / 256 % 256 = 0xC1 := by
  decide

/-- C10: `const_shift` panics exactly when the immediate is at least the bit
width of the precision; below the bit width it emits the shift instruction
(three opcode and ModR/M bytes, with `0xC1` as the opcode byte) followed by
the one-byte immediate. -/
theorem const_shift_guard (s : AsmState) (o : ShiftOp) (prec : Precision) (dest : Register)
    (imm : Nat) :
    (prec.bits ≤ imm → constShift s o prec dest imm = none)
    ∧ (imm < prec.bits →
        constShift s o prec dest imm = some (writeImm8 (writeRom1 s o.rmImm prec dest) imm)
        ∧ ∃ s', constShift s o prec dest imm = some s' ∧ s'.pos = s.pos + 4 ∧
            s'.buffer (s.pos + 1) = 0xC1 ∧ s'.buffer (s.pos + 3) = imm) := by
  constructor
  · intro h
    simp only [constShift]
    rw [if_neg (by omega)]
  · intro h
    have he : constShift s o prec dest imm =
        some (writeImm8 (writeRom1 s o.rmImm prec dest) imm) := by
      simp only [constShift]
      rw [if_pos h]
    refine ⟨he, _, he, ?_, ?_, ?_⟩
    · show s.pos + 3 + 1 = s.pos + 4
      omega
    · show bufWrite (bufWrite s.buffer s.pos _ 3) (s.pos + 3) (imm % 256) 1 (s.pos + 1) = 0xC1
      rw [bufWrite_lt _ _ _ _ _ (by omega), bufWrite_mem _ _ _ _ _ (by omega) (by omega)]
      rw [show s.pos + 1 - s.pos = 1 from by omega]
      exact shift_opcode_byte1 o prec dest
    · show bufWrite (bufWrite s.buffer s.pos _ 3) (s.pos + 3) (imm % 256) 1 (s.pos + 3) = imm
      rw [bufWrite_mem _ _ _ _ _ (by omega) (by omega)]
      rw [show s.pos + 3 - (s.pos + 3) = 0 from by omega]
      have hb : imm < 256 := by
        rcases prec with _ | _ <;> simp [Precision.bits] at h <;> omega
      norm_num
      omega

/-- Witness for C10: `shl` by 32 on a 32-bit operand panics, by 7 it
assembles `41 C1 E0 07`. -/
theorem const_shift_guard_witness :
    constShift asmNew .Shl .P32 R8 32 = none
    ∧ ∃ s', constShift asmNew .Shl .P32 R8 7 = some s' ∧ s'.pos = asmNew.pos + 4 ∧
        s'.buffer (asmNew.pos + 1) = 0xC1 ∧ s'.buffer (asmNew.pos + 3) = 7 := by
  exact ⟨(const_shift_guard asmNew .Shl .P32 R8 32).1 (by decide),
    ((const_shift_guard asmNew .Shl .P32 R8 7).2 (by decide)).2⟩

/-- C9: `debug(x)` pushes an even number of registers (all of `CALLER_SAVES`,
preceded by an extra push of `CALLER_SAVES[0]` when the list has odd length),
then moves `x` to RDI, loads the `debug_word` address and calls through it,
then pops exactly the same registers in reverse order, so the number of
pushes equals the number of pops. -/
theorem debug_push_pop (callerSaves : List Register) (x : Register) :
    ∃ pushes : List Register,
      debugTrace callerSaves x = pushes.map DebugEvent.push
          ++ [DebugEvent.movRdi x, DebugEvent.constRcDebugWord, DebugEvent.callRc]
          ++ pushes.reverse.map DebugEvent.pop
      ∧ pushes.length % 2 = 0
      ∧ ((debugTrace callerSaves x).countP
            (fun e => match e with | .push _ => true | _ => false)
          = (debugTrace callerSaves x).countP
            (fun e => match e with | .pop _ => true | _ => false)) := by
  refine ⟨(if callerSaves.length % 2 ≠ 0 then [callerSaves.headD RA] else [])
    ++ callerSaves, ?_, ?_, ?_⟩
  · by_cases h : callerSaves.length % 2 = 0 <;>
      simp [debugTrace, h, List.map_append, List.reverse_append]
  · by_cases h : callerSaves.length % 2 = 0
    · simp [h]
    · rw [if_pos h]
      simp only [List.length_append, List.length_cons, List.length_nil]
      omega
  · by_cases h : callerSaves.length % 2 = 0 <;>
      simp [debugTrace, h, List.countP_append, List.countP_map, Function.comp_def,
        List.countP_true, List.countP_cons, List.countP_nil]

/-! ## Part 2: keep-alive analysis (`src/optimizer/builder/keep_alive.rs`)

The dataflow graph, control-flow tree and `flood` are not under `src/`
(`src/optimizer/mod.rs` and `src/optimizer/builder/flood.rs` are missing);
they are modelled from the spec (§3, §4.1). `KeepAlive::walk` and
`keep_alive_sets` are embedded from `keep_alive.rs` itself. Recursion is
fuel-based so that the definitions evaluate in the kernel; exhausted fuel
and the Rust assertion failures both surface as `none`. -/

/-- A dataflow node, identified by its arena index. -/
abbrev Node := Nat

/-- One output value of a node: the pair of the defining node and the output
index (`Out`, resolved by `Dataflow::out`). -/
abbrev Out := Nat × Nat

/-- The per-node mark array (`ArrayMap<Node, usize>`), as a total map. -/
abbrev Marks := Nat → Nat

/-- Modelled from the spec: the dataflow graph (§3). Each node has ordered
input dependencies (data `Out`s, `Dataflow::ins`) and effect dependencies
(`Node`s whose side effects must precede it). The entry node dominates all. -/
structure Dataflow where
  entry : Node
  ins : Node → List Out
  deps : Node → List Node

/-- The state threaded through the flood traversal: the marks, the collected
`inputs` set, the post-order list of visited nodes, and an `ok` flag that is
cleared when fuel runs out. -/
structure FloodState where
  marks : Marks
  inputs : Finset Out
  nodes : List Node
  ok : Bool

/-- Modelled from the spec (§4.1): processing of the data edges of a node.
An edge to an unmarked node descends (via `go`); an edge to a node marked at
a strictly hotter level records the `Out` in `inputs`; an edge to a node
already marked at this level is skipped. -/
def floodIns (go : Node → FloodState → FloodState) (c : Nat) :
    List Out → FloodState → FloodState
  | [], s => s
  | o :: t, s =>
    let s' := if s.marks o.1 = 0 then go o.1 s
      else if s.marks o.1 < c then { s with inputs := insert o s.inputs } else s
    floodIns go c t s'

/-- Modelled from the spec (§4.1): processing of the effect edges of a node.
An edge to an unmarked node descends; marked nodes are skipped (the
keep-alive traversal collects only the `inputs` set). -/
def floodDeps (go : Node → FloodState → FloodState) :
    List Node → FloodState → FloodState
  | [], s => s
  | m :: t, s =>
    let s' := if s.marks m = 0 then go m s else s
    floodDeps go t s'

/-- Modelled from the spec (§4.1): depth-first traversal from a node.
The node receives mark `c`, its data and effect edges are followed, and the
node is pushed onto the result list in post-order. Exhausted fuel clears
`ok`. -/
def floodGo (d : Dataflow) (c : Nat) : Nat → Node → FloodState → FloodState
  | 0, _, s => { s with ok := false }
  | fuel + 1, node, s =>
    let s1 : FloodState := { s with marks := Function.update s.marks node c }
    let s2 := floodIns (fun m t => floodGo d c fuel m t) c (d.ins node) s1
    let s3 := floodDeps (fun m t => floodGo d c fuel m t) (d.deps node) s2
    { s3 with nodes := s3.nodes ++ [node] }

/-- Modelled from the spec (§3): a control-flow tree. A `Merge` is a leaf
carrying the exit node and leaf metadata; a `Switch` names a guard node, an
array of cases, a default successor and the hot index. -/
inductive CFT where
  | merge (exit : Node) (leaf : Nat)
  | switch (guard : Node) (cases : List CFT) (default_ : CFT) (hotIndex : Nat)

/-- Modelled from the spec (§3): `Cold<T>` with `T` instantiated to the cold
subtrees collected by `hot_path`. -/
structure ColdT where
  guard : Node
  hotIndex : Nat
  colds : List CFT

/-- Modelled from the spec (§3): `hot_path` follows the hot child of each
`Switch` (the case selected by `hot_index`, the default being cold) and
yields the ordered list of cold branches passed, the exit node and the leaf. -/
def hotPath : Nat → CFT → Option (List ColdT × Node × Nat)
  | _, .merge e l => some ([], e, l)
  | 0, .switch _ _ _ _ => none
  | fuel + 1, .switch g cases d h =>
    match hotPath fuel (cases.getD h d) with
    | none => none
    | some (colds, e, l) =>
      some (⟨g, h, cases.take h ++ cases.drop (h + 1) ++ [d]⟩ :: colds, e, l)

mutual

/-- A tree of hot paths (`HotPathTree`): exit node, leaf metadata, and one
`GuardFailure` per guard on the hot path (in hot-path order; the Rust
`HashMap` keyed by guard is represented positionally). -/
inductive HPT where
  | mk (exit : Node) (leaf : Nat) (children : List GF)

/-- What happens when a guard fails (`GuardFailure`): the cold subtrees and
the keep-alive set. -/
inductive GF where
  | mk (guard : Node) (hotIndex : Nat) (colds : List HPT) (keepAlives : Finset Out)

end

def HPT.exit : HPT → Node
  | .mk e _ _ => e

def HPT.leafD : HPT → Nat
  | .mk _ l _ => l

def HPT.children : HPT → List GF
  | .mk _ _ c => c

def GF.guard : GF → Node
  | .mk g _ _ _ => g

def GF.hotIndex : GF → Nat
  | .mk _ h _ _ => h

def GF.colds : GF → List HPT
  | .mk _ _ c _ => c

def GF.keepAlives : GF → Finset Out
  | .mk _ _ _ ka => ka

/-- Look up the `GuardFailure` for a guard node (`children.get(&node)`). -/
def HPT.findGF (t : HPT) (g : Node) : Option GF :=
  t.children.find? (fun gf => gf.guard == g)

/-- The unmark loop at the end of `KeepAlive::walk` (keep_alive.rs lines
98-102): each flooded node is asserted to carry mark `coldness` and reset
to `0`; `none` models the assertion failure. -/
def unmarkAll (coldness : Nat) : List Node → Marks → Option Marks
  | [], marks => some marks
  | n :: t, marks =>
    if marks n = coldness then unmarkAll coldness t (Function.update marks n 0) else none

/-- The propagation loop of `KeepAlive::walk` (keep_alive.rs lines 88-95):
every keep-alive whose definer is marked at a strictly hotter level is added
to this level's inputs; a keep-alive whose definer is unmarked fails the
`assert_ne!` (`none`). -/
def propagate (ka : Finset Out) (inputs : Finset Out) (marks : Marks) (coldness : Nat) :
    Option (Finset Out) :=
  if ∀ o ∈ ka, marks o.1 ≠ 0
  then some (inputs ∪ ka.filter (fun o => marks o.1 < coldness))
  else none

/-- The recursion of `cold.map(|&c| self.walk(c, &mut keep_alives, coldness + 1))`:
the cold subtrees of one guard are walked in order, sharing the `keep_alives`
accumulator and threading the marks. -/
def walkColdList (w : CFT → Finset Out → Marks → Option (HPT × Finset Out × Marks)) :
    List CFT → Finset Out → Marks → Option (List HPT × Finset Out × Marks)
  | [], ka, marks => some ([], ka, marks)
  | c :: t, ka, marks =>
    match w c ka marks with
    | none => none
    | some (tree, ka1, marks1) =>
      match walkColdList w t ka1 marks1 with
      | none => none
      | some (trees, ka2, marks2) => some (tree :: trees, ka2, marks2)

/-- The per-guard loop of `KeepAlive::walk` (keep_alive.rs lines 83-97):
for each guard passed on the hot path, walk its cold subtrees with a fresh
`keep_alives` accumulator, propagate hotter-defined keep-alives into this
level's inputs, and build the `GuardFailure`. -/
def walkColds (w : CFT → Finset Out → Marks → Option (HPT × Finset Out × Marks))
    (coldness : Nat) :
    List ColdT → Finset Out → Marks → Option (List GF × Finset Out × Marks)
  | [], inputs, marks => some ([], inputs, marks)
  | k :: t, inputs, marks =>
    match walkColdList w k.colds ∅ marks with
    | none => none
    | some (trees, ka, marks1) =>
      match propagate ka inputs marks1 coldness with
      | none => none
      | some inputs1 =>
        match walkColds w coldness t inputs1 marks1 with
        | none => none
        | some (gfs, inputs2, marks2) =>
          some (GF.mk k.guard k.hotIndex trees ka :: gfs, inputs2, marks2)

/-- `KeepAlive::walk` (keep_alive.rs lines 77-105): compute the hot path,
flood everything the exit depends on, recurse on each guard's cold subtrees
(collecting keep-alives and propagating hotter inputs), unmark the flooded
nodes, and return the `HotPathTree` together with the final inputs
accumulator and marks. `none` models a panic, a failed assertion, or
exhausted fuel. -/
def walk (d : Dataflow) : Nat → CFT → Finset Out → Marks → Nat →
    Option (HPT × Finset Out × Marks)
  | 0, _, _, _, _ => none
  | fuel + 1, cft, inputs, marks, coldness =>
    match hotPath (fuel + 1) cft with
    | none => none
    | some (colds, exit, leaf) =>
      if marks exit ≠ 0 then none
      else
        let fs := floodGo d coldness (fuel + 1) exit ⟨marks, inputs, [], true⟩
        if fs.ok = false then none
        else
          match walkColds (fun c ka m => walk d fuel c ka m (coldness + 1)) coldness
              colds fs.inputs fs.marks with
          | none => none
          | some (gfs, inputs2, marks2) =>
            match unmarkAll coldness fs.nodes marks2 with
            | none => none
            | some marks3 => some (HPT.mk exit leaf gfs, inputs2, marks3)

/-- The initial marks of `KeepAlive::new`: the entry node is pre-marked `1`,
every other node `0`. -/
def initMarks (d : Dataflow) : Marks := Function.update (fun _ => 0) d.entry 1

/-- `keep_alive_sets` with the full final state exposed. -/
def keepAliveSetsFull (d : Dataflow) (fuel : Nat) (cft : CFT) :
    Option (HPT × Finset Out × Marks) :=
  walk d fuel cft ∅ (initMarks d) 2

/-- `keep_alive_sets` (keep_alive.rs lines 113-116). -/
def keepAliveSets (d : Dataflow) (fuel : Nat) (cft : CFT) : Option HPT :=
  (keepAliveSetsFull d fuel cft).map (fun r => r.1)

/-! ## The binary-tree test dataflow (keep_alive.rs lines 155-202) -/

/-- The dataflow of the `binary_tree` test: node 0 is the entry with seven
outputs a..s, nodes 1-3 are the guards reading a, b, c, and nodes 4-7 are
the four `Convention` exits reading p, q, r, s with effect dependencies on
the guards above them. -/
def binTreeDataflow : Dataflow where
  entry := 0
  ins := fun n => match n with
    | 1 => [(0, 0)]
    | 2 => [(0, 1)]
    | 3 => [(0, 2)]
    | 4 => [(0, 3)]
    | 5 => [(0, 4)]
    | 6 => [(0, 5)]
    | 7 => [(0, 6)]
    | _ => []
  deps := fun n => match n with
    | 4 => [1, 2]
    | 5 => [1, 2]
    | 6 => [1, 3]
    | 7 => [1, 3]
    | _ => []

/-- The CFT of the `binary_tree` test:
`if a (guard 1) then (if b (guard 2) then exit 4 else exit 5) else (if c
(guard 3) then exit 6 else exit 7)`. -/
def binTreeCFT : CFT :=
  CFT.switch 1 [CFT.switch 2 [CFT.merge 4 0] (CFT.merge 5 0) 0]
    (CFT.switch 3 [CFT.merge 6 0] (CFT.merge 7 0) 0) 0

/-- C2: on the binary-tree dataflow (7 entry values a..s at outputs
(0,0)..(0,6), guards 1-3), `keep_alive_sets` returns the hot exit 4 with
guard failures for exactly guards 1 and 2 at the root (the root itself
carries no keep-alives: a `HotPathTree` has none); guard 1's failure has
keep-alives c, r, s, guard 2's has q, and guard 3 (inside guard 1's cold
subtree) has s. -/
theorem binary_tree_keep_alive_sets :
    (keepAliveSets binTreeDataflow 20 binTreeCFT).map HPT.exit = some 4
    ∧ (keepAliveSets binTreeDataflow 20 binTreeCFT).map (fun t => t.children.map GF.guard) =
        some [1, 2]
    ∧ ((keepAliveSets binTreeDataflow 20 binTreeCFT).bind (fun t => t.findGF 1)).map
        (fun gf => gf.keepAlives) = some {(0, 2), (0, 5), (0, 6)}
    ∧ ((keepAliveSets binTreeDataflow 20 binTreeCFT).bind (fun t => t.findGF 2)).map
        (fun gf => gf.keepAlives) = some {(0, 4)}
    ∧ (((keepAliveSets binTreeDataflow 20 binTreeCFT).bind (fun t => t.findGF 1)).bind
        (fun gf => gf.colds.head?)).map HPT.exit = some 6
    ∧ ((((keepAliveSets binTreeDataflow 20 binTreeCFT).bind (fun t => t.findGF 1)).bind
        (fun gf => gf.colds.head?)).bind (fun t => t.findGF 3)).map
        (fun gf => gf.keepAlives) = some {(0, 6)}
    ∧ ((keepAliveSets binTreeDataflow 20 binTreeCFT).bind (fun t => t.findGF 2)).map
        (fun gf => gf.colds.map HPT.exit) = some [5] := by
  refine ⟨by decide, by decide, by decide, by decide, by decide, by decide, by decide⟩

/-! ## Mark-discipline lemmas for the flood traversal -/

/-- The marks after a successful unmark loop: every listed node is `0`, the
rest are unchanged. -/
lemma unmarkAll_some (c : Nat) :
    ∀ (l : List Node) (marks marks' : Marks), unmarkAll c l marks = some marks' →
      ∀ x, marks' x = if x ∈ l then 0 else marks x := by
  intro l
  induction l with
  | nil =>
    intro marks marks' h x
    simp only [unmarkAll, Option.some_inj] at h
    subst h
    simp
  | cons n t ih =>
    intro marks marks' h x
    simp only [unmarkAll] at h
    by_cases hc : marks n = c
    · rw [if_pos hc] at h
      have hx := ih _ _ h x
      rw [hx]
      by_cases hmt : x ∈ t
      · simp [hmt]
      · by_cases hmn : x = n
        · subst hmn
          simp [hmt, Function.update]
        · simp [hmt, hmn, Function.update]
    · rw [if_neg hc] at h
      exact absurd h (by simp)

/-- The specification of a flood visitor: starting from an unmarked node, it
appends some list `Δ` of nodes, sets exactly the marks of `Δ` to `c`, and
every node of `Δ` was unmarked before. -/
def GoMarks (c : Nat) (go : Node → FloodState → FloodState) : Prop :=
  ∀ node s, s.marks node = 0 →
    ∃ Δ : List Node,
      (go node s).nodes = s.nodes ++ Δ ∧
      (∀ x, (go node s).marks x = if x ∈ Δ then c else s.marks x) ∧
      (∀ x ∈ Δ, s.marks x = 0)

lemma delta_comp {c : Nat} {m0 m1 m2 : Marks} {Δ₁ Δ₂ : List Node}
    (h1m : ∀ x, m1 x = if x ∈ Δ₁ then c else m0 x) (h1z : ∀ x ∈ Δ₁, m0 x = 0)
    (h2m : ∀ x, m2 x = if x ∈ Δ₂ then c else m1 x) (h2z : ∀ x ∈ Δ₂, m1 x = 0) :
    (∀ x, m2 x = if x ∈ Δ₁ ++ Δ₂ then c else m0 x) ∧ (∀ x ∈ Δ₁ ++ Δ₂, m0 x = 0) := by
  constructor
  · intro x
    rw [h2m]
    by_cases h2 : x ∈ Δ₂
    · rw [if_pos h2, if_pos (by simp [h2])]
    · rw [if_neg h2, h1m]
      by_cases h1 : x ∈ Δ₁
      · rw [if_pos h1, if_pos (by simp [h1])]
      · rw [if_neg h1, if_neg (by simp [h1, h2])]
  · intro x hx
    rcases List.mem_append.mp hx with h1 | h2
    · exact h1z x h1
    · have := h2z x h2
      rw [h1m] at this
      by_cases h1 : x ∈ Δ₁
      · exact h1z x h1
      · rw [if_neg h1] at this
        exact this

lemma floodIns_marks (c : Nat) (go : Node → FloodState → FloodState) (hgo : GoMarks c go) :
    ∀ (l : List Out) (s : FloodState),
      ∃ Δ, (floodIns go c l s).nodes = s.nodes ++ Δ ∧
        (∀ x, (floodIns go c l s).marks x = if x ∈ Δ then c else s.marks x) ∧
        (∀ x ∈ Δ, s.marks x = 0) := by
  intro l
  induction l with
  | nil =>
    intro s
    exact ⟨[], by simp [floodIns], by simp [floodIns], by simp⟩
  | cons o t ih =>
    intro s
    simp only [floodIns]
    by_cases h0 : s.marks o.1 = 0
    · rw [if_pos h0]
      obtain ⟨Δ₁, hn1, hm1, hz1⟩ := hgo o.1 s h0
      obtain ⟨Δ₂, hn2, hm2, hz2⟩ := ih (go o.1 s)
      obtain ⟨hm, hz⟩ := delta_comp hm1 hz1 hm2 hz2
      exact ⟨Δ₁ ++ Δ₂, by rw [hn2, hn1, List.append_assoc], hm, hz⟩
    · rw [if_neg h0]
      by_cases h1 : s.marks o.1 < c
      · rw [if_pos h1]
        exact ih { s with inputs := insert o s.inputs }
      · rw [if_neg h1]
        exact ih s

lemma floodDeps_marks (c : Nat) (go : Node → FloodState → FloodState) (hgo : GoMarks c go) :
    ∀ (l : List Node) (s : FloodState),
      ∃ Δ, (floodDeps go l s).nodes = s.nodes ++ Δ ∧
        (∀ x, (floodDeps go l s).marks x = if x ∈ Δ then c else s.marks x) ∧
        (∀ x ∈ Δ, s.marks x = 0) := by
  intro l
  induction l with
  | nil =>
    intro s
    exact ⟨[], by simp [floodDeps], by simp [floodDeps], by simp⟩
  | cons n t ih =>
    intro s
    simp only [floodDeps]
    by_cases h0 : s.marks n = 0
    · rw [if_pos h0]
      obtain ⟨Δ₁, hn1, hm1, hz1⟩ := hgo n s h0
      obtain ⟨Δ₂, hn2, hm2, hz2⟩ := ih (go n s)
      obtain ⟨hm, hz⟩ := delta_comp hm1 hz1 hm2 hz2
      exact ⟨Δ₁ ++ Δ₂, by rw [hn2, hn1, List.append_assoc], hm, hz⟩
    · rw [if_neg h0]
      exact ih s

lemma floodGo_marks (d : Dataflow) (c : Nat) :
    ∀ fuel, GoMarks c (floodGo d c fuel) := by
  intro fuel
  induction fuel with
  | zero =>
    intro node s _
    exact ⟨[], by simp [floodGo], by simp [floodGo], by simp⟩
  | succ fuel ih =>
    intro node s h0
    simp only [floodGo]
    set s1 : FloodState := { s with marks := Function.update s.marks node c } with hs1
    obtain ⟨Δ₁, hn1, hm1, hz1⟩ := floodIns_marks c _ ih (d.ins node) s1
    obtain ⟨Δ₂, hn2, hm2, hz2⟩ :=
      floodDeps_marks c _ ih (d.deps node) (floodIns (fun m t => floodGo d c fuel m t) c
        (d.ins node) s1)
    have hs1m : ∀ x, s1.marks x = if x = node then c else s.marks x := by
      intro x
      by_cases hx : x = node
      · subst hx
        simp [hs1, Function.update]
      · simp [hs1, Function.update, hx]
    have hs1z : ∀ x, s1.marks x = 0 → s.marks x = 0 := by
      intro x hx
      rw [hs1m] at hx
      by_cases hxn : x = node
      · subst hxn
        exact h0
      · rw [if_neg hxn] at hx
        exact hx
    refine ⟨Δ₁ ++ Δ₂ ++ [node], ?_, ?_, ?_⟩
    · show (floodDeps _ (d.deps node) _).nodes ++ [node] = s.nodes ++ (Δ₁ ++ Δ₂ ++ [node])
      rw [hn2, hn1]
      show s.nodes ++ Δ₁ ++ Δ₂ ++ [node] = _
      simp [List.append_assoc]
    · intro x
      show (floodDeps _ (d.deps node) _).marks x = _
      rw [hm2]
      by_cases h2 : x ∈ Δ₂
      · rw [if_pos h2, if_pos (by simp [h2])]
      · rw [if_neg h2, hm1]
        by_cases h1 : x ∈ Δ₁
        · rw [if_pos h1, if_pos (by simp [h1])]
        · rw [if_neg h1, hs1m]
          by_cases hxn : x = node
          · rw [if_pos hxn, if_pos (by simp [hxn])]
          · rw [if_neg hxn, if_neg (by simp [h1, h2, hxn])]
    · intro x hx
      rcases List.mem_append.mp hx with hx' | hxn
      · rcases List.mem_append.mp hx' with h1 | h2
        · exact hs1z x (hz1 x h1)
        · have := hz2 x h2
          rw [hm1] at this
          by_cases h1 : x ∈ Δ₁
          · exact hs1z x (hz1 x h1)
          · rw [if_neg h1] at this
            exact hs1z x this
      · have : x = node := by simpa using hxn
        subst this
        exact h0

/-! ## Marks are restored by `walk` -/

lemma walkColdList_marks (w : CFT → Finset Out → Marks → Option (HPT × Finset Out × Marks))
    (hw : ∀ cft i m r, w cft i m = some r → r.2.2 = m) :
    ∀ l i m r, walkColdList w l i m = some r → r.2.2 = m := by
  intro l
  induction l with
  | nil =>
    intro i m r h
    simp only [walkColdList, Option.some_inj] at h
    subst h
    rfl
  | cons c t ih =>
    intro i m r h
    simp only [walkColdList] at h
    rcases hw1 : w c i m with _ | ⟨tree, ka1, marks1⟩ <;> rw [hw1] at h
    · simp at h
    dsimp only at h
    rcases hw2 : walkColdList w t ka1 marks1 with _ | ⟨trees, ka2, marks2⟩ <;> rw [hw2] at h
    · simp at h
    dsimp only at h
    rw [Option.some_inj] at h
    subst h
    have h2 : marks2 = marks1 := ih ka1 marks1 (trees, ka2, marks2) hw2
    have h1 : marks1 = m := hw c i m (tree, ka1, marks1) hw1
    show marks2 = m
    rw [h2, h1]

lemma walkColds_marks (w : CFT → Finset Out → Marks → Option (HPT × Finset Out × Marks))
    (hw : ∀ cft i m r, w cft i m = some r → r.2.2 = m) (c : Nat) :
    ∀ l i m r, walkColds w c l i m = some r → r.2.2 = m := by
  intro l
  induction l with
  | nil =>
    intro i m r h
    simp only [walkColds, Option.some_inj] at h
    subst h
    rfl
  | cons k t ih =>
    intro i m r h
    simp only [walkColds] at h
    rcases hw1 : walkColdList w k.colds ∅ m with _ | ⟨trees, ka, marks1⟩ <;> rw [hw1] at h
    · simp at h
    dsimp only at h
    rcases hp : propagate ka i marks1 c with _ | i1 <;> rw [hp] at h
    · simp at h
    dsimp only at h
    rcases hw2 : walkColds w c t i1 marks1 with _ | ⟨gfs, i2, marks2⟩ <;> rw [hw2] at h
    · simp at h
    dsimp only at h
    rw [Option.some_inj] at h
    subst h
    have h2 : marks2 = marks1 := ih i1 marks1 (gfs, i2, marks2) hw2
    have h1 : marks1 = m := walkColdList_marks w hw k.colds ∅ m (trees, ka, marks1) hw1
    show marks2 = m
    rw [h2, h1]

lemma walk_marks (d : Dataflow) :
    ∀ fuel cft i m k r, walk d fuel cft i m k = some r → r.2.2 = m := by
  intro fuel
  induction fuel with
  | zero =>
    intro cft i m k r h
    simp [walk] at h
  | succ fuel ih =>
    intro cft i m k r h
    simp only [walk] at h
    rcases hhp : hotPath (fuel + 1) cft with _ | ⟨colds, exit, leaf⟩ <;> rw [hhp] at h
    · simp at h
    dsimp only at h
    by_cases hme : m exit ≠ 0
    · rw [if_pos hme] at h
      simp at h
    rw [if_neg hme] at h
    have hme0 : m exit = 0 := by omega
    set fs := floodGo d k (fuel + 1) exit ⟨m, i, [], true⟩ with hfs
    by_cases hok : fs.ok = false
    · rw [if_pos hok] at h
      simp at h
    rw [if_neg hok] at h
    rcases hwc : walkColds (fun c ka mm => walk d fuel c ka mm (k + 1)) k colds
        fs.inputs fs.marks with _ | ⟨gfs, inputs2, marks2⟩ <;> rw [hwc] at h
    · simp at h
    dsimp only at h
    rcases hum : unmarkAll k fs.nodes marks2 with _ | marks3 <;> rw [hum] at h
    · simp at h
    dsimp only at h
    rw [Option.some_inj] at h
    subst h
    show marks3 = m
    obtain ⟨Δ, hΔn, hΔm, hΔz⟩ :=
      floodGo_marks d k (fuel + 1) exit ⟨m, i, [], true⟩ hme0
    have hm2 : marks2 = fs.marks :=
      walkColds_marks _ (fun cft i m r hr => ih cft i m (k + 1) r hr) k colds
        fs.inputs fs.marks (gfs, inputs2, marks2) hwc
    have hnodes : fs.nodes = Δ := by
      rw [hfs, hΔn]
      simp
    funext x
    rw [unmarkAll_some k fs.nodes marks2 marks3 hum x, hnodes, hm2]
    by_cases hx : x ∈ Δ
    · rw [if_pos hx]
      exact (hΔz x hx).symm
    · rw [if_neg hx, hfs, hΔm, if_neg hx]

/-- C3: mark discipline. Every successful call to `walk` returns with the
marks map identical to the one it was given (each recursive call resets
every mark it set), and when `keep_alive_sets` returns, the final marks map
has `marks[entry] = 1` and `marks[n] = 0` for every other node. -/
theorem keep_alive_mark_discipline (d : Dataflow) :
    (∀ fuel cft inputs marks coldness r,
        walk d fuel cft inputs marks coldness = some r → r.2.2 = marks)
    ∧ (∀ fuel cft r, keepAliveSetsFull d fuel cft = some r →
        ∀ n, r.2.2 n = if n = d.entry then 1 else 0) := by
  refine ⟨walk_marks d, ?_⟩
  intro fuel cft r h n
  have hm : r.2.2 = initMarks d := walk_marks d fuel cft ∅ (initMarks d) 2 r h
  rw [hm]
  by_cases hn : n = d.entry
  · subst hn
    simp [initMarks]
  · simp [initMarks, Function.update, hn]

/-- Witness for C3: the final marks of the binary-tree run evaluate to `1`
on the entry node and `0` elsewhere. -/
theorem keep_alive_mark_discipline_witness :
    (keepAliveSetsFull binTreeDataflow 20 binTreeCFT).map
      (fun r => (r.2.2 0, r.2.2 1, r.2.2 2, r.2.2 3, r.2.2 4, r.2.2 5, r.2.2 6, r.2.2 7)) =
    some (1, 0, 0, 0, 0, 0, 0, 0) := by
  rcases hr : keepAliveSetsFull binTreeDataflow 20 binTreeCFT with _ | r
  · have hs : (keepAliveSetsFull binTreeDataflow 20 binTreeCFT).isSome = true := by decide
    rw [hr] at hs
    simp at hs
  have hall := (keep_alive_mark_discipline binTreeDataflow).2 20 binTreeCFT r hr
  simp only [Option.map_some']
  rw [show binTreeDataflow.entry = 0 from rfl] at hall
  rw [hall 0, hall 1, hall 2, hall 3, hall 4, hall 5, hall 6, hall 7]
  norm_num

/-! ## The flood traversal is additive in the `inputs` accumulator

The traversal never reads `inputs`; running it with accumulator `i` yields
the same marks, nodes and flag as running it with `∅`, and the union of `i`
with the inputs collected from `∅`. -/

/-- Replace the `inputs` accumulator of a flood state. -/
def withInputs (s : FloodState) (i : Finset Out) : FloodState :=
  ⟨s.marks, i, s.nodes, s.ok⟩

lemma withInputs_self (s : FloodState) : withInputs s s.inputs = s := rfl

/-- A flood visitor whose only effect on `inputs` is to add a set that does
not depend on the accumulator. -/
def GoAdd (go : Node → FloodState → FloodState) : Prop :=
  ∀ node s i, go node (withInputs s i)
    = withInputs (go node (withInputs s ∅)) (i ∪ (go node (withInputs s ∅)).inputs)

lemma union_insert_shuffle (o : Out) (i X : Finset Out) :
    insert o i ∪ X = i ∪ (insert o ∅ ∪ X) := by
  ext a
  simp
  tauto

lemma floodIns_add (go : Node → FloodState → FloodState) (hgo : GoAdd go) (c : Nat) :
    ∀ (l : List Out) (s : FloodState) (i : Finset Out),
      floodIns go c l (withInputs s i)
        = withInputs (floodIns go c l (withInputs s ∅))
            (i ∪ (floodIns go c l (withInputs s ∅)).inputs) := by
  intro l
  induction l with
  | nil =>
    intro s i
    simp [floodIns, withInputs]
  | cons o t ih =>
    intro s i
    simp only [floodIns]
    show floodIns go c t _ = _
    by_cases h0 : s.marks o.1 = 0
    · rw [show (withInputs s i).marks = s.marks from rfl, if_pos h0,
        show (withInputs s ∅).marks = s.marks from rfl, if_pos h0]
      rw [hgo o.1 s i]
      set G := go o.1 (withInputs s ∅) with hG
      rw [ih G (i ∪ G.inputs)]
      rw [show floodIns go c t G = floodIns go c t (withInputs G G.inputs) from rfl,
        ih G G.inputs]
      set F := floodIns go c t (withInputs G ∅) with hF
      show withInputs F ((i ∪ G.inputs) ∪ F.inputs)
        = withInputs (withInputs F (G.inputs ∪ F.inputs)) (i ∪ (G.inputs ∪ F.inputs))
      rw [show withInputs (withInputs F (G.inputs ∪ F.inputs)) (i ∪ (G.inputs ∪ F.inputs))
        = withInputs F (i ∪ (G.inputs ∪ F.inputs)) from rfl]
      rw [Finset.union_assoc]
    · rw [show (withInputs s i).marks = s.marks from rfl, if_neg h0,
        show (withInputs s ∅).marks = s.marks from rfl, if_neg h0]
      by_cases h1 : s.marks o.1 < c
      · rw [if_pos h1, if_pos h1]
        show floodIns go c t (withInputs s (insert o i))
          = withInputs (floodIns go c t (withInputs s (insert o ∅)))
              (i ∪ (floodIns go c t (withInputs s (insert o ∅))).inputs)
        rw [ih s (insert o i), ih s (insert o ∅)]
        set F := floodIns go c t (withInputs s ∅) with hF
        show withInputs F (insert o i ∪ F.inputs)
          = withInputs F (i ∪ (insert o ∅ ∪ F.inputs))
        rw [union_insert_shuffle]
      · rw [if_neg h1, if_neg h1]
        exact ih s i

lemma floodDeps_add (go : Node → FloodState → FloodState) (hgo : GoAdd go) :
    ∀ (l : List Node) (s : FloodState) (i : Finset Out),
      floodDeps go l (withInputs s i)
        = withInputs (floodDeps go l (withInputs s ∅))
            (i ∪ (floodDeps go l (withInputs s ∅)).inputs) := by
  intro l
  induction l with
  | nil =>
    intro s i
    simp [floodDeps, withInputs]
  | cons n t ih =>
    intro s i
    simp only [floodDeps]
    show floodDeps go t _ = _
    by_cases h0 : s.marks n = 0
    · rw [show (withInputs s i).marks = s.marks from rfl, if_pos h0,
        show (withInputs s ∅).marks = s.marks from rfl, if_pos h0]
      rw [hgo n s i]
      set G := go n (withInputs s ∅) with hG
      rw [ih G (i ∪ G.inputs)]
      rw [show floodDeps go t G = floodDeps go t (withInputs G G.inputs) from rfl,
        ih G G.inputs]
      set F := floodDeps go t (withInputs G ∅) with hF
      show withInputs F ((i ∪ G.inputs) ∪ F.inputs)
        = withInputs (withInputs F (G.inputs ∪ F.inputs)) (i ∪ (G.inputs ∪ F.inputs))
      rw [show withInputs (withInputs F (G.inputs ∪ F.inputs)) (i ∪ (G.inputs ∪ F.inputs))
        = withInputs F (i ∪ (G.inputs ∪ F.inputs)) from rfl]
      rw [Finset.union_assoc]
    · rw [show (withInputs s i).marks = s.marks from rfl, if_neg h0,
        show (withInputs s ∅).marks = s.marks from rfl, if_neg h0]
      exact ih s i

lemma floodGo_add (d : Dataflow) (c : Nat) :
    ∀ fuel, GoAdd (floodGo d c fuel) := by
  intro fuel
  induction fuel with
  | zero =>
    intro node s i
    simp [floodGo, withInputs]
  | succ fuel ih =>
    intro node s i
    simp only [floodGo]
    set s1 : FloodState := { s with marks := Function.update s.marks node c } with hs1
    rw [show { withInputs s i with
        marks := Function.update (withInputs s i).marks node c } = withInputs s1 i from rfl]
    rw [show { withInputs s ∅ with
        marks := Function.update (withInputs s ∅).marks node c } = withInputs s1 ∅ from rfl]
    set go' := fun m t => floodGo d c fuel m t with hgo'
    have hgoa : GoAdd go' := ih
    rw [floodIns_add go' hgoa c (d.ins node) s1 i]
    set I := floodIns go' c (d.ins node) (withInputs s1 ∅) with hI
    rw [floodDeps_add go' hgoa (d.deps node) I (i ∪ I.inputs)]
    rw [show floodDeps go' (d.deps node) I
      = floodDeps go' (d.deps node) (withInputs I I.inputs) from rfl,
      floodDeps_add go' hgoa (d.deps node) I I.inputs]
    set D := floodDeps go' (d.deps node) (withInputs I ∅) with hD
    show withInputs { D with nodes := D.nodes ++ [node] } (i ∪ I.inputs ∪ D.inputs)
      = withInputs { D with nodes := D.nodes ++ [node] } (i ∪ (I.inputs ∪ D.inputs))
    rw [Finset.union_assoc]

/-! ## `walk` is additive in the `inputs` accumulator, and the keep-alive
sets are the unions of the cold children's input sets -/

/-- A walk function whose only effect on the `inputs` accumulator is to add
a set that does not depend on the accumulator. -/
def WAdd (w : CFT → Finset Out → Marks → Option (HPT × Finset Out × Marks)) : Prop :=
  ∀ cft i m r, w cft i m = some r →
    ∃ A, r.2.1 = i ∪ A ∧ ∀ i₀, w cft i₀ m = some (r.1, i₀ ∪ A, r.2.2)

/-- A walk function that restores the marks it is given. -/
def WRes (w : CFT → Finset Out → Marks → Option (HPT × Finset Out × Marks)) : Prop :=
  ∀ cft i m r, w cft i m = some r → r.2.2 = m

/-- The union of the input sets returned by standalone walks (from an empty
accumulator) over a list of cold subtrees. -/
def unionWalkInputs (w : CFT → Finset Out → Marks → Option (HPT × Finset Out × Marks))
    (m : Marks) : List CFT → Option (Finset Out)
  | [] => some ∅
  | c :: t =>
    match w c ∅ m, unionWalkInputs w m t with
    | some r, some B => some (r.2.1 ∪ B)
    | _, _ => none

lemma propagate_some (ka i : Finset Out) (m : Marks) (c : Nat) (i1 : Finset Out)
    (h : propagate ka i m c = some i1) :
    i1 = i ∪ ka.filter (fun o => m o.1 < c) ∧
      ∀ i₀, propagate ka i₀ m c = some (i₀ ∪ ka.filter (fun o => m o.1 < c)) := by
  simp only [propagate] at h ⊢
  by_cases hc : ∀ o ∈ ka, m o.1 ≠ 0
  · rw [if_pos hc] at h
    rw [Option.some_inj] at h
    exact ⟨h.symm, fun i₀ => by rw [if_pos hc]⟩
  · rw [if_neg hc] at h
    exact absurd h (by simp)

lemma walkColdList_spec (w : CFT → Finset Out → Marks → Option (HPT × Finset Out × Marks))
    (hwa : WAdd w) (hwr : WRes w) :
    ∀ (l : List CFT) (i : Finset Out) (m : Marks) (r : List HPT × Finset Out × Marks),
      walkColdList w l i m = some r →
      r.2.2 = m ∧ ∃ B, r.2.1 = i ∪ B ∧
        (∀ i₀, walkColdList w l i₀ m = some (r.1, i₀ ∪ B, r.2.2)) ∧
        unionWalkInputs w m l = some B := by
  intro l
  induction l with
  | nil =>
    intro i m r h
    simp only [walkColdList, Option.some_inj] at h
    subst h
    refine ⟨rfl, ∅, by simp, fun i₀ => ?_, rfl⟩
    simp [walkColdList]
  | cons c cs ih =>
    intro i m r h
    simp only [walkColdList] at h
    rcases hw1 : w c i m with _ | r₁ <;> rw [hw1] at h
    · simp at h
    rcases hr1 : r₁ with ⟨tree, ka1, m1⟩
    rw [hr1] at h hw1
    dsimp only at h
    rcases hw2 : walkColdList w cs ka1 m1 with _ | r₂ <;> rw [hw2] at h
    · simp at h
    rcases hr2 : r₂ with ⟨trees, ka2, m2⟩
    rw [hr2] at h hw2
    dsimp only at h
    rw [Option.some_inj] at h
    subst h
    have hm1 : m1 = m := hwr c i m (tree, ka1, m1) hw1
    obtain ⟨A, hA, hAll⟩ := hwa c i m (tree, ka1, m1) hw1
    dsimp only at hA hAll
    rw [hm1] at hw2
    obtain ⟨hm2, B', hB', hAll', hU'⟩ := ih ka1 m (trees, ka2, m2) hw2
    dsimp only at hm2 hB' hAll'
    refine ⟨hm2, A ∪ B', ?_, ?_, ?_⟩
    · show ka2 = i ∪ (A ∪ B')
      rw [hB', hA, Finset.union_assoc]
    · intro i₀
      simp only [walkColdList]
      rw [hm1] at hAll
      rw [hAll i₀]
      dsimp only
      rw [hAll' (i₀ ∪ A)]
      dsimp only
      rw [Finset.union_assoc]
    · simp only [unionWalkInputs]
      rw [hm1] at hAll
      rw [hAll ∅]
      try dsimp only
      rw [hU']
      try dsimp only
      rw [show (∅ ∪ A : Finset Out) = A from Finset.empty_union A]

lemma walkColds_spec (w : CFT → Finset Out → Marks → Option (HPT × Finset Out × Marks))
    (hwa : WAdd w) (hwr : WRes w) (c : Nat) :
    ∀ (l : List ColdT) (i : Finset Out) (m : Marks) (r : List GF × Finset Out × Marks),
      walkColds w c l i m = some r →
      r.2.2 = m ∧ r.1.length = l.length ∧
      (∃ B, r.2.1 = i ∪ B ∧ ∀ i₀, walkColds w c l i₀ m = some (r.1, i₀ ∪ B, r.2.2)) ∧
      (∀ (j : Nat) (gf : GF) (kj : ColdT), r.1[j]? = some gf → l[j]? = some kj →
        gf.guard = kj.guard ∧ gf.hotIndex = kj.hotIndex ∧
        unionWalkInputs w m kj.colds = some gf.keepAlives) := by
  intro l
  induction l with
  | nil =>
    intro i m r h
    simp only [walkColds, Option.some_inj] at h
    subst h
    refine ⟨rfl, rfl, ⟨∅, by simp, fun i₀ => ?_⟩, ?_⟩
    · simp only [walkColds]
      rw [Finset.union_empty]
    · intro j gf kj hgf
      simp at hgf
  | cons k t ih =>
    intro i m r h
    simp only [walkColds] at h
    rcases hw1 : walkColdList w k.colds ∅ m with _ | r₁ <;> rw [hw1] at h
    · simp at h
    rcases hr1 : r₁ with ⟨trees, ka, m1⟩
    rw [hr1] at h hw1
    dsimp only at h
    rcases hp : propagate ka i m1 c with _ | i1 <;> rw [hp] at h
    · simp at h
    dsimp only at h
    rcases hw2 : walkColds w c t i1 m1 with _ | r₂ <;> rw [hw2] at h
    · simp at h
    rcases hr2 : r₂ with ⟨gfs, i2, m2⟩
    rw [hr2] at h hw2
    dsimp only at h
    rw [Option.some_inj] at h
    subst h
    obtain ⟨hm1, B, hka, _, hU⟩ := walkColdList_spec w hwa hwr k.colds ∅ m (trees, ka, m1) hw1
    dsimp only at hm1 hka
    have hkaB : ka = B := by rw [hka, Finset.empty_union]
    rw [hm1] at hp hw2
    obtain ⟨hX, hPAll⟩ := propagate_some ka i m c i1 hp
    obtain ⟨hm2, hlen, ⟨B₂, hi2, hAll₂⟩, hper⟩ := ih i1 m (gfs, i2, m2) hw2
    dsimp only at hm2 hlen hi2 hAll₂ hper
    refine ⟨hm2, by simp [hlen], ⟨ka.filter (fun o => m o.1 < c) ∪ B₂, ?_, ?_⟩, ?_⟩
    · show i2 = i ∪ _
      rw [hi2, hX, Finset.union_assoc]
    · intro i₀
      simp only [walkColds]
      rw [hw1]
      dsimp only
      rw [hm1, hPAll i₀]
      dsimp only
      rw [hAll₂ (i₀ ∪ ka.filter (fun o => m o.1 < c))]
      dsimp only
      rw [Finset.union_assoc]
    · intro j gf kj hgf hkj
      cases j with
      | zero =>
        simp only [List.getElem?_cons_zero, Option.some_inj] at hgf hkj
        subst hgf
        subst hkj
        refine ⟨rfl, rfl, ?_⟩
        show unionWalkInputs w m k.colds = some ka
        rw [hU, hkaB]
      | succ j =>
        simp only [List.getElem?_cons_succ] at hgf hkj
        exact hper j gf kj hgf hkj

lemma walk_add (d : Dataflow) :
    ∀ fuel cft i m k r, walk d fuel cft i m k = some r →
      ∃ A, r.2.1 = i ∪ A ∧ ∀ i₀, walk d fuel cft i₀ m k = some (r.1, i₀ ∪ A, r.2.2) := by
  intro fuel
  induction fuel with
  | zero =>
    intro cft i m k r h
    simp [walk] at h
  | succ fuel ih =>
    intro cft i m k r h
    simp only [walk] at h
    rcases hhp : hotPath (fuel + 1) cft with _ | hp <;> rw [hhp] at h
    · simp at h
    rcases hhp2 : hp with ⟨colds, exit, leaf⟩
    rw [hhp2] at h hhp
    dsimp only at h
    by_cases hme : m exit ≠ 0
    · rw [if_pos hme] at h
      simp at h
    rw [if_neg hme] at h
    have hadd : ∀ j : Finset Out, floodGo d k (fuel + 1) exit ⟨m, j, [], true⟩
        = withInputs (floodGo d k (fuel + 1) exit ⟨m, ∅, [], true⟩)
            (j ∪ (floodGo d k (fuel + 1) exit ⟨m, ∅, [], true⟩).inputs) :=
      fun j => floodGo_add d k (fuel + 1) exit ⟨m, ∅, [], true⟩ j
    set FS := floodGo d k (fuel + 1) exit ⟨m, ∅, [], true⟩ with hFS
    rw [hadd i] at h
    simp only [withInputs] at h
    by_cases hok : FS.ok = false
    · rw [if_pos hok] at h
      simp at h
    rw [if_neg hok] at h
    rcases hwc : walkColds (fun c ka mm => walk d fuel c ka mm (k + 1)) k colds
        (i ∪ FS.inputs) FS.marks with _ | rc <;> rw [hwc] at h
    · simp at h
    rcases hrc : rc with ⟨gfs, i2, m2⟩
    rw [hrc] at h hwc
    dsimp only at h
    rcases hum : unmarkAll k FS.nodes m2 with _ | marks3 <;> rw [hum] at h
    · simp at h
    dsimp only at h
    rw [Option.some_inj] at h
    subst h
    have hwa : WAdd (fun c ka mm => walk d fuel c ka mm (k + 1)) :=
      fun cft i m r hr => ih cft i m (k + 1) r hr
    have hwr : WRes (fun c ka mm => walk d fuel c ka mm (k + 1)) :=
      fun cft i m r hr => walk_marks d fuel cft i m (k + 1) r hr
    obtain ⟨_, _, ⟨B, hi2, hAll⟩, _⟩ :=
      walkColds_spec _ hwa hwr k colds (i ∪ FS.inputs) FS.marks (gfs, i2, m2) hwc
    dsimp only at hi2 hAll
    refine ⟨FS.inputs ∪ B, ?_, ?_⟩
    · show i2 = i ∪ (FS.inputs ∪ B)
      rw [hi2, Finset.union_assoc]
    · intro i₀
      simp only [walk]
      rw [hhp]
      dsimp only
      rw [if_neg hme]
      rw [hadd i₀]
      simp only [withInputs]
      rw [if_neg hok]
      rw [hAll (i₀ ∪ FS.inputs)]
      dsimp only
      rw [hum]
      dsimp only
      rw [Finset.union_assoc]

/-- C1: keep-alive closure. For every dataflow graph, CFT and successful
call to `walk`, each guard on the hot path gets a `GuardFailure` (children
and cold branches correspond positionally), and its recorded `keep_alives`
set is exactly the union of the input sets returned by the recursive walks
over that guard's cold children (each walked standalone from an empty
accumulator at the marks left by the hot-path flood, which is the state in
which the recursion performs them). -/
theorem keep_alive_union (d : Dataflow) (fuel : Nat) (cft : CFT) (inputs : Finset Out)
    (marks : Marks) (coldness : Nat) (r : HPT × Finset Out × Marks)
    (h : walk d (fuel + 1) cft inputs marks coldness = some r) :
    ∃ colds exit leaf,
      hotPath (fuel + 1) cft = some (colds, exit, leaf) ∧
      r.1.exit = exit ∧
      r.1.children.length = colds.length ∧
      (∀ (j : Nat) (gf : GF) (kj : ColdT),
        r.1.children[j]? = some gf → colds[j]? = some kj →
        gf.guard = kj.guard ∧
        unionWalkInputs (fun c ka mm => walk d fuel c ka mm (coldness + 1))
          (floodGo d coldness (fuel + 1) exit ⟨marks, inputs, [], true⟩).marks
          kj.colds = some gf.keepAlives) := by
  simp only [walk] at h
  rcases hhp : hotPath (fuel + 1) cft with _ | hp <;> rw [hhp] at h
  · simp at h
  rcases hhp2 : hp with ⟨colds, exit, leaf⟩
  rw [hhp2] at h hhp
  dsimp only at h
  by_cases hme : marks exit ≠ 0
  · rw [if_pos hme] at h
    simp at h
  rw [if_neg hme] at h
  set FS := floodGo d coldness (fuel + 1) exit ⟨marks, inputs, [], true⟩ with hFS
  by_cases hok : FS.ok = false
  · rw [if_pos hok] at h
    simp at h
  rw [if_neg hok] at h
  rcases hwc : walkColds (fun c ka mm => walk d fuel c ka mm (coldness + 1)) coldness colds
      FS.inputs FS.marks with _ | rc <;> rw [hwc] at h
  · simp at h
  rcases hrc : rc with ⟨gfs, i2, m2⟩
  rw [hrc] at h hwc
  dsimp only at h
  rcases hum : unmarkAll coldness FS.nodes m2 with _ | marks3 <;> rw [hum] at h
  · simp at h
  dsimp only at h
  rw [Option.some_inj] at h
  subst h
  have hwa : WAdd (fun c ka mm => walk d fuel c ka mm (coldness + 1)) :=
    fun cft i m r hr => walk_add d fuel cft i m (coldness + 1) r hr
  have hwr : WRes (fun c ka mm => walk d fuel c ka mm (coldness + 1)) :=
    fun cft i m r hr => walk_marks d fuel cft i m (coldness + 1) r hr
  obtain ⟨_, hlen, _, hper⟩ :=
    walkColds_spec _ hwa hwr coldness colds FS.inputs FS.marks (gfs, i2, m2) hwc
  dsimp only at hlen hper
  refine ⟨colds, exit, leaf, rfl, rfl, ?_, ?_⟩
  · show gfs.length = colds.length
    exact hlen
  · intro j gf kj hgf hkj
    have := hper j gf kj hgf hkj
    exact ⟨this.1, this.2.2⟩

/-- Witness for C1: the binary-tree run at fuel `19 + 1`. -/
theorem keep_alive_union_witness :
    ∃ r, walk binTreeDataflow 20 binTreeCFT ∅ (initMarks binTreeDataflow) 2 = some r ∧
      ∃ colds exit leaf, hotPath 20 binTreeCFT = some (colds, exit, leaf) ∧
        r.1.exit = exit ∧ r.1.children.length = colds.length := by
  rcases hr : walk binTreeDataflow 20 binTreeCFT ∅ (initMarks binTreeDataflow) 2 with _ | r
  · have hs : (walk binTreeDataflow 20 binTreeCFT ∅ (initMarks binTreeDataflow) 2).isSome
        = true := by decide
    rw [hr] at hs
    simp at hs
  have h20 : walk binTreeDataflow (19 + 1) binTreeCFT ∅ (initMarks binTreeDataflow) 2
      = some r := hr
  obtain ⟨colds, exit, leaf, hhp, hexit, hlen, _⟩ :=
    keep_alive_union binTreeDataflow 19 binTreeCFT ∅ (initMarks binTreeDataflow) 2 r h20
  exact ⟨r, rfl, colds, exit, leaf, hhp, hexit, hlen⟩

end Mijit
